import Mathlib

/-!
Chat client: frame codec, reassembly pass, roster and login handshake.

A shallow embedding of `client.c`.  Memory is modelled as lists of bytes,
C `int` values as `Int` with explicit two's-complement wrap-around
(`wrapInt32`), `uint32_t`/`size_t` values as `Nat` with an explicit `% 2^32`
where the source truncates.  The host byte order is a parameter (`Endian`):
`htons`/`htonl` and the object representation of the packed header depend on
it, the bytes on the wire do not.
-/

namespace ChatClient

/-! Protocol constants (the `#define`s of the source) -/

def MAGIC : Nat := 0xCAFE
def VERSION : Nat := 0x01
def HEADER_SIZE : Nat := 9

def LOGIN_REQUEST : Fin 256 := 0x01
def PING : Fin 256 := 0x07
def MAX_NICKNAME_LEN : Nat := 51
def MAX_MESSAGE_LEN : Nat := 1024
def MAX_BUFFER_LEN : Nat := 4096
def MAX_USERS : Nat := 100

/-- The size of `client.receive_buffer`, `sizeof(uint8_t[MAX_BUFFER_LEN * 2])`. -/
def RECEIVE_BUFFER_SIZE : Nat := MAX_BUFFER_LEN * 2

/-! Bytes and machine integers -/

/-- One `uint8_t` / `char` cell of memory. -/
abbrev Byte := Fin 256

/-- Truncation of a number to `uint8_t`. -/
def toByte (x : Nat) : Byte := ⟨x % 256, Nat.mod_lt x (by decide)⟩

/-- Conversion of an integer to C `int` (32 bits, two's complement); also the
result of `int` arithmetic that leaves the representable range. -/
def wrapInt32 (z : Int) : Int := (z + 2147483648) % 4294967296 - 2147483648

/-- Byte order of the host. -/
inductive Endian where
  | little
  | big
  deriving DecidableEq, Repr

def bswap16 (x : Nat) : Nat := (x % 256) * 256 + (x / 256) % 256

def bswap32 (x : Nat) : Nat :=
  (x % 256) * 16777216 + ((x / 256) % 256) * 65536 + ((x / 65536) % 256) * 256
    + (x / 16777216) % 256

/-- Model of `htons`: host to network (big-endian) order for a `uint16_t`. -/
def htons (e : Endian) (x : Nat) : Nat :=
  match e with
  | .little => bswap16 (x % 65536)
  | .big => x % 65536

/-- Model of `ntohs`: network to host order for a `uint16_t`. -/
def ntohs (e : Endian) (x : Nat) : Nat :=
  match e with
  | .little => bswap16 (x % 65536)
  | .big => x % 65536

/-- Model of `htonl`: host to network order for a `uint32_t`. -/
def htonl (e : Endian) (x : Nat) : Nat :=
  match e with
  | .little => bswap32 (x % 4294967296)
  | .big => x % 4294967296

/-- Model of `ntohl`: network to host order for a `uint32_t`. -/
def ntohl (e : Endian) (x : Nat) : Nat :=
  match e with
  | .little => bswap32 (x % 4294967296)
  | .big => x % 4294967296

/-- Object representation of a `uint16_t` in the memory of host `e`. -/
def store16 (e : Endian) (x : Nat) : List Byte :=
  match e with
  | .little => [toByte x, toByte (x / 256)]
  | .big => [toByte (x / 256), toByte x]

/-- Object representation of a `uint32_t` in the memory of host `e`. -/
def store32 (e : Endian) (x : Nat) : List Byte :=
  match e with
  | .little => [toByte x, toByte (x / 256), toByte (x / 65536), toByte (x / 16777216)]
  | .big => [toByte (x / 16777216), toByte (x / 65536), toByte (x / 256), toByte x]

/-- The `uint16_t` whose object representation on host `e` is `b0 b1`. -/
def load16 (e : Endian) (b0 b1 : Byte) : Nat :=
  match e with
  | .little => b0.val + b1.val * 256
  | .big => b0.val * 256 + b1.val

/-- The `uint32_t` whose object representation on host `e` is `b0 b1 b2 b3`. -/
def load32 (e : Endian) (b0 b1 b2 b3 : Byte) : Nat :=
  match e with
  | .little => b0.val + b1.val * 256 + b2.val * 65536 + b3.val * 16777216
  | .big => b0.val * 16777216 + b1.val * 65536 + b2.val * 256 + b3.val

/-! Memory primitives -/

/-- Model of `strlen`: the number of bytes before the first NUL of the memory at a
`char*` (the whole list when it holds no NUL). -/
def strlen (s : List Byte) : Nat := (s.takeWhile (fun b => b ≠ 0)).length

/-- The text of the C string stored at a `char*`: its bytes up to the first NUL. -/
def c_str (s : List Byte) : List Byte := s.takeWhile (fun b => b ≠ 0)

/-- The memory image of a C string with text `p`: the text and its terminator. -/
def c_lit (p : List Byte) : List Byte := p ++ [0]

/-- Model of `memcpy(dst + pos, src, n)` / `memmove`: the first `n` bytes of `src`
replace the `n` bytes of `dst` from index `pos` on. -/
def memcpy (dst : List Byte) (pos : Nat) (src : List Byte) (n : Nat) : List Byte :=
  dst.take pos ++ src.take n ++ dst.drop (pos + n)

/-- Read of `buffer[i]` (a read past the end of the modelled memory yields 0). -/
def rd (buffer : List Byte) (i : Int) : Byte := buffer.getD i.toNat 0

/-! Frame codec -/

/-- Model of `pack_message`: returns the `int` result and the destination buffer after
the call. -/
def pack_message (e : Endian) (msg_type : Byte) (data : List Byte) (buffer : List Byte)
    (buffer_size : Nat) : Int × List Byte :=
  let data_len := strlen data
  if HEADER_SIZE + data_len > buffer_size then
    (-1, buffer)
  else
    let header : List Byte :=
      store16 e (htons e MAGIC) ++ [toByte VERSION, 0, msg_type]
        ++ store32 e (htonl e (data_len % 4294967296))
    let buffer1 := memcpy buffer 0 header HEADER_SIZE
    let buffer2 := memcpy buffer1 HEADER_SIZE data data_len
    (wrapInt32 ((HEADER_SIZE : Int) + wrapInt32 (data_len : Int)), buffer2)

/-- What `unpack_message` returns and leaves in its out-parameters. -/
structure UnpackResult where
  ret : Int
  offset : Int
  msg_type : Byte
  data : List Byte
  deriving DecidableEq, Repr

/-- Model of `unpack_message(buffer, buffer_len, &offset, &msg_type, data, data_size)`. -/
def unpack_message (e : Endian) (buffer : List Byte) (buffer_len : Int) (offset : Int)
    (msg_type : Byte) (data : List Byte) (data_size : Nat) : UnpackResult :=
  if wrapInt32 (buffer_len - offset) < (HEADER_SIZE : Int) then
    ⟨0, offset, msg_type, data⟩
  else
    let magic := ntohs e (load16 e (rd buffer offset) (rd buffer (offset + 1)))
    let version := rd buffer (offset + 2)
    let type := rd buffer (offset + 4)
    let length := ntohl e (load32 e (rd buffer (offset + 5)) (rd buffer (offset + 6))
      (rd buffer (offset + 7)) (rd buffer (offset + 8)))
    if magic ≠ MAGIC then
      ⟨-1, offset, msg_type, data⟩
    else if version.val ≠ VERSION then
      ⟨-1, offset, msg_type, data⟩
    else if wrapInt32 (buffer_len - offset)
        < wrapInt32 ((HEADER_SIZE : Int) + wrapInt32 (length : Int)) then
      ⟨0, offset, msg_type, data⟩
    else if length ≥ data_size then
      ⟨-1, offset, msg_type, data⟩
    else
      let data1 := memcpy data 0 (buffer.drop (offset.toNat + HEADER_SIZE)) length
      let data2 := data1.set length 0
      ⟨1, wrapInt32 (offset + (((HEADER_SIZE + length) % 4294967296 : Nat) : Int)),
        type, data2⟩

/-- The 9 header bytes of §6 for a frame of type `t` with an `n`-byte payload:
magic, version, reserved, type and the length as a big-endian 32-bit number. -/
def frame_header (t : Byte) (n : Nat) : List Byte :=
  [0xCA, 0xFE, 0x01, 0x00, t, toByte (n / 16777216), toByte (n / 65536), toByte (n / 256),
    toByte n]

/-- The bytes of one frame on the wire: the header and, right after it, the payload. -/
def frame_bytes (t : Byte) (p : List Byte) : List Byte :=
  frame_header t p.length ++ p

/-- The magic of the header at `offset`, as the big-endian number on the wire. -/
def wire_magic (buffer : List Byte) (offset : Int) : Nat :=
  (rd buffer offset).val * 256 + (rd buffer (offset + 1)).val

/-- The version byte of the header at `offset`. -/
def wire_version (buffer : List Byte) (offset : Int) : Nat := (rd buffer (offset + 2)).val

/-- The type byte of the header at `offset`. -/
def wire_type (buffer : List Byte) (offset : Int) : Byte := rd buffer (offset + 4)

/-- The payload length declared by the header at `offset`, as the big-endian
32-bit number on the wire. -/
def wire_length (buffer : List Byte) (offset : Int) : Nat :=
  (rd buffer (offset + 5)).val * 16777216 + (rd buffer (offset + 6)).val * 65536
    + (rd buffer (offset + 7)).val * 256 + (rd buffer (offset + 8)).val

/-! Reassembly pass of `receive_messages_thread` -/

/-- The fields of `chat_client_t` the receive loop works on. -/
structure RecvState where
  receive_buffer : List Byte
  buffer_len : Int
  deriving DecidableEq, Repr

/-- State at the exit of the `while (offset < client.buffer_len)` loop: the
buffer length, the cursor, the calls `handle_received_message(msg_type, msg_data)`
made so far (type and text of `msg_data`), and whether the loop left through
the "Error, clear buffer" branch. -/
structure LoopState where
  buffer_len : Int
  offset : Int
  dispatched : List (Byte × List Byte)
  invalid : Bool
  deriving DecidableEq, Repr

/-- The loop "Process all complete messages".  `msg_type` and `msg_data` are
fresh locals of each iteration (modelled as zero-filled; they are only read
after a successful `unpack_message` has written them).  `fuel` bounds the
number of iterations; `none` means the bound was reached. -/
def process_messages (e : Endian) (receive_buffer : List Byte) :
    Nat → Int → Int → List (Byte × List Byte) → Option LoopState
  | 0, _, _, _ => none
  | fuel + 1, buffer_len, offset, acc =>
    if offset < buffer_len then
      let r := unpack_message e receive_buffer buffer_len offset 0
        (List.replicate MAX_MESSAGE_LEN 0) MAX_MESSAGE_LEN
      if r.ret = 1 then
        process_messages e receive_buffer fuel buffer_len r.offset
          (acc ++ [(r.msg_type, c_str r.data)])
      else if r.ret = 0 then
        some ⟨buffer_len, r.offset, acc, false⟩
      else
        some ⟨0, 0, acc, true⟩
    else
      some ⟨buffer_len, offset, acc, false⟩

/-- Outcome of one pass over the bytes of one `recv`. -/
structure PassResult where
  receive_buffer : List Byte
  buffer_len : Int
  dispatched : List (Byte × List Byte)
  overflow : Bool
  invalid : Bool
  deriving DecidableEq, Repr

/-- The step "Remove processed data from buffer": the `memmove` and the update of
`buffer_len` after the loop. -/
def compact (receive_buffer : List Byte) (l : LoopState) : PassResult :=
  if l.offset > 0 then
    ⟨memcpy receive_buffer 0 (receive_buffer.drop l.offset.toNat)
        (l.buffer_len - l.offset).toNat,
      wrapInt32 (l.buffer_len - l.offset), l.dispatched, false, l.invalid⟩
  else
    ⟨receive_buffer, l.buffer_len, l.dispatched, false, l.invalid⟩

/-- One iteration of the receive loop after a successful `recv` that returned
the bytes `received_bytes`: the code between `pthread_mutex_lock` and
`pthread_mutex_unlock` (or the `continue` of the overflow branch). -/
def receive_pass (e : Endian) (fuel : Nat) (st : RecvState) (received_bytes : List Byte) :
    Option PassResult :=
  let received : Int := received_bytes.length
  if wrapInt32 (st.buffer_len + received) < (RECEIVE_BUFFER_SIZE : Int) then
    let buffer1 := memcpy st.receive_buffer st.buffer_len.toNat received_bytes received.toNat
    let len1 := wrapInt32 (st.buffer_len + received)
    (process_messages e buffer1 fuel len1 0 []).map (compact buffer1)
  else
    some ⟨st.receive_buffer, 0, [], true, false⟩

/-- The receive loop over the successive results of `recv` (`chunks`, one list
of bytes per successful call) while `client.running` stays set: the final
buffer state and all the calls of `handle_received_message`, in order. -/
def receive_messages_thread (e : Endian) (fuel : Nat) :
    RecvState → List (List Byte) → Option (RecvState × List (Byte × List Byte))
  | st, [] => some (st, [])
  | st, chunk :: chunks =>
    match receive_pass e fuel st chunk with
    | none => none
    | some r =>
      match receive_messages_thread e fuel ⟨r.receive_buffer, r.buffer_len⟩ chunks with
      | none => none
      | some (st2, ds) => some (st2, r.dispatched ++ ds)

/-- The bytes of a sequence of frames sent back to back. -/
def encode_frames : List (Byte × List Byte) → List Byte
  | [] => []
  | f :: fs => frame_bytes f.1 f.2 ++ encode_frames fs

/-- The frames `fs` lie back to back in `buffer` from `offset` on: each header has the
right magic and version (the reserved byte is free), carries the frame's type and the length
of its payload, and the payload follows it. -/
def frames_at (buffer : List Byte) : Int → List (Byte × List Byte) → Prop
  | _, [] => True
  | offset, f :: fs =>
    wire_magic buffer offset = MAGIC ∧ wire_version buffer offset = VERSION ∧
    wire_type buffer offset = f.1 ∧ wire_length buffer offset = f.2.length ∧
    (buffer.drop (offset.toNat + 9)).take f.2.length = f.2 ∧
    frames_at buffer (offset + 9 + (f.2.length : Int)) fs

/-- Whether `frames_at` holds can be computed. -/
def frames_at_decidable (buffer : List Byte) :
    (offset : Int) → (fs : List (Byte × List Byte)) → Decidable (frames_at buffer offset fs)
  | _, [] => isTrue trivial
  | offset, f :: fs =>
    have := frames_at_decidable buffer (offset + 9 + (f.2.length : Int)) fs
    (inferInstance : Decidable (wire_magic buffer offset = MAGIC ∧
      wire_version buffer offset = VERSION ∧ wire_type buffer offset = f.1 ∧
      wire_length buffer offset = f.2.length ∧
      (buffer.drop (offset.toNat + 9)).take f.2.length = f.2 ∧
      frames_at buffer (offset + 9 + (f.2.length : Int)) fs))

instance (buffer : List Byte) (offset : Int) (fs : List (Byte × List Byte)) :
    Decidable (frames_at buffer offset fs) := frames_at_decidable buffer offset fs

/-- The bytes a run of frames takes in the buffer: the sum of `9 + payload length`. -/
def frames_size (fs : List (Byte × List Byte)) : Nat :=
  (fs.map (fun f => 9 + f.2.length)).sum

/-! Payload text decoder (`parse_simple_json` and its accessors) -/

/-- The bytes of an ASCII text. -/
def ascii (s : String) : List Byte := s.toList.map (fun ch => toByte ch.toNat)

/-- Model of `strchr(s, ch)`: index of the first occurrence of `ch` in the text `s`. -/
def strchr : List Byte → Byte → Option Nat
  | [], _ => none
  | b :: bs, ch => if b = ch then some 0 else (strchr bs ch).map (fun i => i + 1)

/-- Model of `strrchr(s, ch)`: index of the last occurrence of `ch` in the text `s`. -/
def strrchr : List Byte → Byte → Option Nat
  | [], _ => none
  | b :: bs, ch =>
    match strrchr bs ch with
    | some i => some (i + 1)
    | none => if b = ch then some 0 else none

/-- Auxiliary for `strtok_tokens`: `cur` is the token being read, reversed. -/
def strtok_aux (delim : Byte) : List Byte → List Byte → List (List Byte)
  | [], cur => if cur = [] then [] else [cur.reverse]
  | b :: bs, cur =>
    if b = delim then
      if cur = [] then strtok_aux delim bs [] else cur.reverse :: strtok_aux delim bs []
    else strtok_aux delim bs (b :: cur)

/-- The tokens that `strtok(s, delim)` and the following `strtok(NULL, delim)` calls return:
the maximal runs of bytes other than the delimiter, in order. -/
def strtok_tokens (s : List Byte) (delim : Byte) : List (List Byte) := strtok_aux delim s []

/-- Model of `while (*p == ' ' || *p == '\t') p++;` -/
def skip_blanks (s : List Byte) : List Byte :=
  s.dropWhile (fun b => b = 0x20 ∨ b = 0x09)

/-- The step "Remove quotes": `if (*s == '"') s++; if (s[strlen(s)-1] == '"') s[strlen(s)-1] = '\0';`.
On an empty text the second test reads the byte before it, which is never a quote that
matters: either it is not a quote, or it is the quote just skipped, and clearing that one
leaves the (empty) text as it is. -/
def strip_quotes (s : List Byte) : List Byte :=
  let s1 := if s.head? = some 0x22 then s.tail else s
  if s1.getLast? = some 0x22 then s1.dropLast else s1

/-- Model of `json_pair_t`: the texts of `key` and `value`. -/
structure json_pair_t where
  key : List Byte
  value : List Byte
  deriving DecidableEq, Repr

/-- Model of `simple_json_t`: the first `count` pairs (`count` is the length of the list). -/
structure simple_json_t where
  pairs : List json_pair_t
  deriving DecidableEq, Repr

/-- The body of the `while (pair && json.count < 10)` loop for one token: the pair it
stores, if the token holds a colon. -/
def parse_pair (pair : List Byte) : Option json_pair_t :=
  let pair1 := skip_blanks pair
  match strchr pair1 0x3A with
  | none => none
  | some colon =>
    let key := strip_quotes (pair1.take colon)
    let value := skip_blanks (strip_quotes (pair1.drop (colon + 1)))
    some ⟨key.take 63, value.take 255⟩

/-- The loop `while (pair && json.count < 10)` over the tokens still to come. -/
def parse_pairs : List (List Byte) → List json_pair_t → List json_pair_t
  | [], acc => acc
  | pair :: rest, acc =>
    if acc.length < 10 then
      match parse_pair pair with
      | some kv => parse_pairs rest (acc ++ [kv])
      | none => parse_pairs rest acc
    else acc

/-- Model of `parse_simple_json(json_str)`. -/
def parse_simple_json (json_str : List Byte) : simple_json_t :=
  let temp := (c_str json_str).take 1023
  match strchr temp 0x7B, strrchr temp 0x7D with
  | some s, some e =>
    let body := if s < e then (temp.take e).drop (s + 1) else temp.drop (s + 1)
    ⟨parse_pairs (strtok_tokens body 0x2C) []⟩
  | _, _ => ⟨[]⟩

/-- Model of `get_json_value(json, key)`: the value of the first pair with that key (`none` for
`NULL`). -/
def get_json_value (json : simple_json_t) (key : List Byte) : Option (List Byte) :=
  (json.pairs.find? (fun p => p.key = key)).map (fun p => p.value)

/-- What the handlers take from the C library: `atof` (the value of the `double` it
returns) and the reading of `time(NULL)`. -/
structure Libc where
  atof : List Byte → Rat
  now : Int

/-- Model of `get_json_double(json, key)`. -/
def get_json_double (env : Libc) (json : simple_json_t) (key : List Byte) : Rat :=
  match get_json_value json key with
  | some value => env.atof value
  | none => 0

/-- Conversion of a `double` to `int`: the fraction is discarded. When the result does not
fit an `int` the conversion is undefined in C; the model gives `INT_MIN` there, the value the
conversion instruction of the usual targets of this program (x86) delivers. -/
def double_to_int (x : Rat) : Int :=
  if -2147483648 ≤ x.num.tdiv x.den ∧ x.num.tdiv x.den ≤ 2147483647 then x.num.tdiv x.den
  else -2147483648

/-- Model of `atof` on the texts of the examples: the number written by the leading decimal digits. -/
def atof_digits (s : List Byte) : Rat :=
  (((s.takeWhile (fun b => 0x30 ≤ b.val ∧ b.val ≤ 0x39)).foldl
    (fun n b => n * 10 + (b.val - 0x30)) 0 : Nat) : Rat)

/-! Client state, presentation events and handlers -/

/-- The fields of `chat_client_t` (without host, port and the mutexes); strings are held as
their texts, `users` has the `MAX_USERS` entries of the array. -/
structure Client where
  socket_fd : Int
  nickname : List Byte
  running : Int
  logged_in : Int
  users : List (List Byte)
  user_count : Int
  recv : RecvState
  deriving DecidableEq, Repr

/-- What the handlers print, one constructor per `printf` format; a time stamp is kept as
the `time_t` handed to `format_timestamp`, an optional text is `none` where the handler
prints its default. -/
inductive Output where
  | login_ok (t : Int) (message : Option (List Byte))
  | separator
  | login_failed (message : Option (List Byte))
  | chat_line (t : Int) (nickname message : List Byte)
  | user_join (t : Int) (nickname : List Byte)
  | user_leave (t : Int) (nickname : List Byte)
  | user_list (count : Int) (users : List Byte)
  | error_line (t : Int) (error_code : Int) (error_message : Option (List Byte))
  | unknown_type (msg_type : Byte)
  deriving DecidableEq, Repr

/-- The loop `while (user && client.user_count < MAX_USERS)` of `handle_user_list` over the
tokens still to come. -/
def store_users : List (List Byte) → Client → Client
  | [], c => c
  | user :: rest, c =>
    if c.user_count < (MAX_USERS : Int) then
      store_users rest
        { c with
          users := c.users.set c.user_count.toNat (user.take (MAX_NICKNAME_LEN - 1)),
          user_count := c.user_count + 1 }
    else c

/-- Model of `handle_user_list(data)`. -/
def handle_user_list (env : Libc) (c : Client) (data : List Byte) : Client × List Output :=
  let json := parse_simple_json data
  let count := double_to_int (get_json_double env json (ascii "count"))
  let c0 := { c with user_count := 0 }
  match get_json_value json (ascii "users") with
  | some users =>
    (store_users (strtok_tokens (users.take 1023) 0x2C) c0, [Output.user_list count users])
  | none => (c0, [])

/-- Model of `send_message(msg_type, data)`: the `int` result and the frames handed to the transport.
`accepted` says whether `send` takes the whole frame (returns `message_len`). -/
def send_message (e : Endian) (accepted : Bool) (msg_type : Byte) (data : List Byte) :
    Int × List (List Byte) :=
  let r := pack_message e msg_type data (List.replicate MAX_BUFFER_LEN 0) MAX_BUFFER_LEN
  if r.1 < 0 then (0, [])
  else if accepted then (1, [r.2.take r.1.toNat])
  else (0, [])

/-- What `login_to_server` meets while it runs: the value of `client.logged_in` (written by
the receive thread) at each clock tick, and whether the transport takes the k-th write. -/
structure LoginEnv where
  logged_in : Nat → Int
  accepts : Nat → Bool

/-- What `login_to_server` does that can be observed, with the clock tick at which it
does it. -/
inductive LoginEvent where
  | sent (clock : Nat) (frame : List Byte)
  | send_failed (clock : Nat)
  | timeout (clock : Nat)
  deriving DecidableEq, Repr

/-- State of the step function of `login_to_server`: the loop counter, the clock in ticks
of 100 ms (one `usleep(100000)`), the number of writes so far and the events so far. -/
structure LoginState where
  attempt : Int
  clock : Nat
  sends : Nat
  log : List LoginEvent
  deriving DecidableEq, Repr

/-- Model of `time(NULL)`: whole seconds of the clock. -/
def time_now (clock : Nat) : Int := ((clock / 10 : Nat) : Int)

/-- The loop `while (time(NULL) - start_time < 5)`: whether it left through
`return 1`, and the clock at its exit. `fuel` bounds the iterations. -/
def wait_for_login (env : LoginEnv) (start_time : Int) : Nat → Nat → Option (Bool × Nat)
  | 0, _ => none
  | fuel + 1, clock =>
    if time_now clock - start_time < 5 then
      if env.logged_in clock ≠ 0 then some (true, clock)
      else wait_for_login env start_time fuel (clock + 1)
    else some (false, clock)

/-- The `for (attempt = 0; attempt < max_retries; attempt++)` loop of `login_to_server`,
`max_retries = 3`. -/
def login_loop (e : Endian) (env : LoginEnv) (nickname : List Byte) :
    Nat → LoginState → Option (Int × LoginState)
  | 0, _ => none
  | fuel + 1, s =>
    if s.attempt < 3 then
      let r := send_message e (env.accepts s.sends) LOGIN_REQUEST (c_lit nickname)
      if r.1 ≠ 0 then
        let log1 := s.log ++ r.2.map (LoginEvent.sent s.clock)
        match wait_for_login env (time_now s.clock) fuel s.clock with
        | none => none
        | some (true, clock1) => some (1, ⟨s.attempt, clock1, s.sends + 1, log1⟩)
        | some (false, clock1) =>
          let log2 :=
            if env.logged_in clock1 = 0 then log1 ++ [LoginEvent.timeout clock1] else log1
          login_loop e env nickname fuel ⟨s.attempt + 1, clock1, s.sends + 1, log2⟩
      else
        login_loop e env nickname fuel
          ⟨s.attempt + 1, s.clock, s.sends + 1, s.log ++ [LoginEvent.send_failed s.clock]⟩
    else some (0, s)

/-- Model of `login_to_server()`, entered at clock tick `clock`. -/
def login_to_server (e : Endian) (env : LoginEnv) (nickname : List Byte) (fuel clock : Nat) :
    Option (Int × LoginState) :=
  login_loop e env nickname fuel ⟨0, clock, 0, []⟩

/-- Model of `disconnect_client()`. -/
def disconnect_client (c : Client) : Client :=
  let c1 := { c with running := 0, logged_in := 0 }
  if c1.socket_fd ≥ 0 then { c1 with socket_fd := -1 } else c1

/-- What `connect_to_server` meets: the results of `socket`, `inet_pton`, `connect` and
`pthread_create`, the clock when the login starts, the environment of the login, and the
effect of `input_loop` on the client. -/
structure ConnectEnv where
  socket_ret : Int
  inet_pton_ret : Int
  connect_ret : Int
  pthread_create_ret : Int
  clock : Nat
  login : LoginEnv
  input_loop : Client → Client

/-- Model of `connect_to_server()`: the `int` result, the client afterwards and the events of the
login. -/
def connect_to_server (e : Endian) (env : ConnectEnv) (fuel : Nat) (c : Client) :
    Option (Int × Client × List LoginEvent) :=
  let c1 := { c with socket_fd := env.socket_ret }
  if c1.socket_fd < 0 then some (0, c1, [])
  else if env.inet_pton_ret ≤ 0 then some (0, c1, [])
  else if env.connect_ret < 0 then some (0, c1, [])
  else
    let c2 := { c1 with running := 1 }
    if env.pthread_create_ret ≠ 0 then some (0, disconnect_client c2, [])
    else
      match login_to_server e env.login c2.nickname fuel env.clock with
      | none => none
      | some (r, s) =>
        let c3 := { c2 with logged_in := env.login.logged_in s.clock }
        if r ≠ 0 then some (1, env.input_loop c3, s.log)
        else some (0, disconnect_client c3, s.log)

/-! Theorems -/

theorem store16_htons_magic (e : Endian) : store16 e (htons e MAGIC) = [0xCA, 0xFE] := by
  cases e <;> decide

theorem bswap32_bytes (v : Nat) (hv : v < 4294967296) :
    bswap32 v % 256 = v / 16777216 ∧ bswap32 v / 256 % 256 = v / 65536 % 256 ∧
    bswap32 v / 65536 % 256 = v / 256 % 256 ∧ bswap32 v / 16777216 = v % 256 := by
  unfold bswap32
  have hA : v % 256 < 256 := Nat.mod_lt _ (by decide)
  have hB : v / 256 % 256 < 256 := Nat.mod_lt _ (by decide)
  have hC : v / 65536 % 256 < 256 := Nat.mod_lt _ (by decide)
  have hD : v / 16777216 % 256 = v / 16777216 := by omega
  rw [hD]
  have hD2 : v / 16777216 < 256 := by omega
  generalize v % 256 = A at *
  generalize v / 256 % 256 = B at *
  generalize v / 65536 % 256 = C at *
  generalize v / 16777216 = D at *
  refine ⟨by omega, by omega, by omega, by omega⟩

theorem u32_bytes (n : Nat) :
    n % 4294967296 / 16777216 = n / 16777216 % 256 ∧
    n % 4294967296 / 65536 % 256 = n / 65536 % 256 ∧
    n % 4294967296 / 256 % 256 = n / 256 % 256 ∧
    n % 4294967296 % 256 = n % 256 := by
  refine ⟨by omega, by omega, by omega, by omega⟩

theorem store32_htonl (e : Endian) (n : Nat) :
    store32 e (htonl e (n % 4294967296)) =
      [toByte (n / 16777216), toByte (n / 65536), toByte (n / 256), toByte n] := by
  obtain ⟨a0, a1, a2, a3⟩ := u32_bytes n
  have a4 : n % 4294967296 / 16777216 % 256 = n / 16777216 % 256 := by
    rw [a0]; exact Nat.mod_mod _ _
  cases e
  · obtain ⟨h0, h1, h2, h3⟩ := bswap32_bytes (n % 4294967296) (Nat.mod_lt _ (by decide))
    simp only [store32, htonl, toByte, Nat.mod_mod, h0, h1, h2, h3, a0, a1, a2, a3]
  · simp only [store32, htonl, toByte, Nat.mod_mod, a4, a1, a2, a3]

theorem ntohs_load16 (e : Endian) (b0 b1 : Byte) :
    ntohs e (load16 e b0 b1) = b0.val * 256 + b1.val := by
  cases e <;> simp only [ntohs, load16, bswap16] <;> omega

theorem ntohl_load32 (e : Endian) (b0 b1 b2 b3 : Byte) :
    ntohl e (load32 e b0 b1 b2 b3)
      = b0.val * 16777216 + b1.val * 65536 + b2.val * 256 + b3.val := by
  cases e
  · simp only [ntohl, load32]
    have hv : b0.val + b1.val * 256 + b2.val * 65536 + b3.val * 16777216 < 4294967296 := by
      omega
    rw [Nat.mod_eq_of_lt hv]
    unfold bswap32
    have h0 := b0.isLt
    have h1 := b1.isLt
    have h2 := b2.isLt
    have h3 := b3.isLt
    generalize b0.val = x0 at *
    generalize b1.val = x1 at *
    generalize b2.val = x2 at *
    generalize b3.val = x3 at *
    have e0 : (x0 + x1 * 256 + x2 * 65536 + x3 * 16777216) % 256 = x0 := by omega
    have e1 : (x0 + x1 * 256 + x2 * 65536 + x3 * 16777216) / 256 % 256 = x1 := by omega
    have e2 : (x0 + x1 * 256 + x2 * 65536 + x3 * 16777216) / 65536 % 256 = x2 := by omega
    have e3 : (x0 + x1 * 256 + x2 * 65536 + x3 * 16777216) / 16777216 % 256 = x3 := by omega
    rw [e0, e1, e2, e3]
  · simp only [ntohl, load32]; omega


theorem takeWhile_nul_free (p rest : List Byte) (hp : (0 : Byte) ∉ p) :
    (p ++ 0 :: rest).takeWhile (fun b => b ≠ 0) = p := by
  induction p with
  | nil => simp
  | cons a p ih =>
    have ha : a ≠ 0 := fun h => hp (by simp [h])
    have hp2 : (0 : Byte) ∉ p := fun h => hp (by simp [h])
    have := ih hp2
    simp only [List.cons_append, List.takeWhile_cons, ha, ne_eq, not_false_eq_true,
      decide_True, ↓reduceIte, this]

theorem strlen_c_lit (p : List Byte) (hp : (0 : Byte) ∉ p) : strlen (c_lit p) = p.length := by
  unfold strlen c_lit
  rw [takeWhile_nul_free p [] hp]

theorem c_str_append_nul (p rest : List Byte) (hp : (0 : Byte) ∉ p) :
    c_str (p ++ 0 :: rest) = p := takeWhile_nul_free p rest hp

theorem wrapInt32_of_range (z : Int) (h1 : -2147483648 ≤ z) (h2 : z < 2147483648) :
    wrapInt32 z = z := by
  unfold wrapInt32; omega

theorem pack_message_eq (e : Endian) (t : Byte) (p buffer : List Byte) (buffer_size : Nat)
    (hp : (0 : Byte) ∉ p) (hfit : HEADER_SIZE + p.length ≤ buffer_size)
    (hint : buffer_size < 2147483648) :
    pack_message e t (c_lit p) buffer buffer_size
      = (((9 + p.length : Nat) : Int), frame_bytes t p ++ buffer.drop (9 + p.length)) := by
  have hlen := strlen_c_lit p hp
  unfold pack_message
  simp only [hlen]
  simp only [HEADER_SIZE] at hfit
  rw [if_neg (by simp only [HEADER_SIZE]; omega)]
  have w1 : wrapInt32 (p.length : Int) = p.length := wrapInt32_of_range _ (by omega) (by omega)
  have w2 : wrapInt32 (((9 : Nat) : Int) + (p.length : Int)) = ((9 + p.length : Nat) : Int) := by
    rw [wrapInt32_of_range _ (by omega) (by omega)]; omega
  simp only [store16_htons_magic, store32_htonl, HEADER_SIZE, w1, w2]
  refine Prod.ext rfl ?_
  simp only [memcpy, frame_bytes, frame_header, c_lit, VERSION]
  simp only [List.take_zero, List.nil_append, List.take_succ_cons, List.take_nil, List.cons_append,
    Nat.zero_add, List.drop_zero, List.take_left', List.append_assoc]
  have hd : ∀ (l1 l2 : List Byte) (n : Nat), l1.length = 9 → (l1 ++ l2).drop (9 + n) = l2.drop n := by
    intro l1 l2 n h
    rw [← List.drop_drop, ← h, List.drop_left]
  have := hd [0xCA, 0xFE, 1, 0, t, toByte (p.length / 16777216), toByte (p.length / 65536),
    toByte (p.length / 256), toByte p.length] (buffer.drop 9) p.length rfl
  simp only [List.cons_append, List.nil_append, List.drop_drop] at this
  have ht : toByte 1 = 1 := rfl
  rw [ht, this]

theorem rd_append_right (pre l : List Byte) (i : Nat) :
    rd (pre ++ l) ((pre.length : Int) + (i : Int)) = l.getD i 0 := by
  unfold rd
  have : ((pre.length : Int) + (i : Int)).toNat = pre.length + i := by omega
  rw [this, List.getD_eq_getElem?_getD, List.getD_eq_getElem?_getD,
    List.getElem?_append_right (by omega)]
  congr 2
  omega

theorem unpack_message_eq (e : Endian) (buffer : List Byte) (buffer_len offset : Int)
    (msg_type : Byte) (data : List Byte) (data_size : Nat) :
    unpack_message e buffer buffer_len offset msg_type data data_size =
      if wrapInt32 (buffer_len - offset) < 9 then ⟨0, offset, msg_type, data⟩
      else if wire_magic buffer offset ≠ MAGIC then ⟨-1, offset, msg_type, data⟩
      else if wire_version buffer offset ≠ VERSION then ⟨-1, offset, msg_type, data⟩
      else if wrapInt32 (buffer_len - offset)
          < wrapInt32 (9 + wrapInt32 (wire_length buffer offset : Int)) then
        ⟨0, offset, msg_type, data⟩
      else if wire_length buffer offset ≥ data_size then ⟨-1, offset, msg_type, data⟩
      else
        ⟨1, wrapInt32 (offset + (((9 + wire_length buffer offset) % 4294967296 : Nat) : Int)),
          wire_type buffer offset,
          (memcpy data 0 (buffer.drop (offset.toNat + 9)) (wire_length buffer offset)).set
            (wire_length buffer offset) 0⟩ := by
  unfold unpack_message
  simp only [ntohs_load16, ntohl_load32, wire_magic, wire_version, wire_length, wire_type,
    HEADER_SIZE, Nat.cast_ofNat]



theorem frame_header_length (t : Byte) (n : Nat) : (frame_header t n).length = 9 := rfl

theorem be32_value (n : Nat) (hn : n < 4294967296) :
    (toByte (n / 16777216)).val * 16777216 + (toByte (n / 65536)).val * 65536
      + (toByte (n / 256)).val * 256 + (toByte n).val = n := by
  simp only [toByte]
  omega

theorem wire_fields_at (pre tail : List Byte) (t : Byte) (n : Nat) (hn : n < 4294967296) :
    wire_magic (pre ++ frame_header t n ++ tail) pre.length = MAGIC ∧
    wire_version (pre ++ frame_header t n ++ tail) pre.length = VERSION ∧
    wire_type (pre ++ frame_header t n ++ tail) pre.length = t ∧
    wire_length (pre ++ frame_header t n ++ tail) pre.length = n := by
  have r : ∀ i : Nat, rd (pre ++ frame_header t n ++ tail) ((pre.length : Int) + (i : Int))
      = (frame_header t n ++ tail).getD i 0 := by
    intro i
    rw [List.append_assoc]
    exact rd_append_right pre _ i
  have r0 := r 0
  have r1 := r 1
  have r2 := r 2
  have r4 := r 4
  have r5 := r 5
  have r6 := r 6
  have r7 := r 7
  have r8 := r 8
  simp only [Nat.cast_zero, add_zero, Nat.cast_one, Nat.cast_ofNat] at r0 r1 r2 r4 r5 r6 r7 r8
  simp only [wire_magic, wire_version, wire_type, wire_length, r0, r1, r2, r4, r5, r6, r7, r8]
  simp only [frame_header, List.cons_append, List.getD_cons_zero, List.getD_cons_succ]
  exact ⟨by decide, by decide, trivial, be32_value n hn⟩

theorem unpack_at_header (e : Endian) (pre tail : List Byte) (t : Byte) (n : Nat)
    (buffer_len : Int) (msg_type : Byte) (data : List Byte) (data_size : Nat)
    (hn : (n : Int) + 9 < 2147483648) (h9 : (pre.length : Int) + 9 ≤ buffer_len)
    (hbl : buffer_len < 2147483648) :
    unpack_message e (pre ++ frame_header t n ++ tail) buffer_len pre.length msg_type data
        data_size =
      if buffer_len < (pre.length : Int) + 9 + n then ⟨0, pre.length, msg_type, data⟩
      else if n ≥ data_size then ⟨-1, pre.length, msg_type, data⟩
      else ⟨1, (pre.length : Int) + 9 + n, t, (memcpy data 0 tail n).set n 0⟩ := by
  have w0 : wrapInt32 (buffer_len - (pre.length : Int)) = buffer_len - pre.length :=
    wrapInt32_of_range _ (by omega) (by omega)
  have w1 : wrapInt32 (n : Int) = n := wrapInt32_of_range _ (by omega) (by omega)
  have w2 : wrapInt32 (9 + (n : Int)) = 9 + n := wrapInt32_of_range _ (by omega) (by omega)
  have w3 : (((9 + n) % 4294967296 : Nat) : Int) = 9 + n := by omega
  have h9' : ¬ (buffer_len - (pre.length : Int) < 9) := by omega
  have w4 : wrapInt32 ((pre.length : Int) + (9 + (n : Int))) = pre.length + 9 + n
      ∨ buffer_len < (pre.length : Int) + 9 + n := by
    by_cases h : buffer_len < (pre.length : Int) + 9 + n
    · exact Or.inr h
    · left
      have := wrapInt32_of_range ((pre.length : Int) + (9 + (n : Int))) (by omega) (by omega)
      rw [this]; omega
  have hn' : n < 4294967296 := by omega
  obtain ⟨hm, hv, ht, hl⟩ := wire_fields_at pre tail t n hn'
  rw [unpack_message_eq, hm, hv, ht, hl]
  rw [w0, w1, w2, w3]
  rw [if_neg h9', if_neg (by simp), if_neg (by simp)]
  by_cases h : buffer_len < (pre.length : Int) + 9 + n
  · rw [if_pos (by clear hm hv ht hl; omega), if_pos h]
  · rw [if_neg (by clear hm hv ht hl; omega), if_neg h]
    have w4 := w4.resolve_right h
    have hd : (pre ++ frame_header t n ++ tail).drop ((pre.length : Int).toNat + 9) = tail := by
      have : (pre.length : Int).toNat + 9 = (pre ++ frame_header t n).length := by
        simp [frame_header_length]
      rw [this, List.drop_left]
    rw [w4, hd]


theorem memcpy_set_terminator (data p tail : List Byte) (h : p.length < data.length) :
    (memcpy data 0 (p ++ tail) p.length).set p.length 0 = p ++ 0 :: data.drop (p.length + 1) := by
  unfold memcpy
  simp only [List.take_zero, List.nil_append, Nat.zero_add, List.take_left']
  rw [List.set_append_right _ _ (Nat.le_refl _), Nat.sub_self]
  congr 1
  have hlt : p.length < data.length := h
  rw [List.drop_eq_getElem_cons hlt, List.set_cons_zero]

theorem unpack_pack_message (e : Endian) (t : Byte) (p dst : List Byte) (msg_type : Byte)
    (data : List Byte) (data_size : Nat) (hp : (0 : Byte) ∉ p)
    (hfit : 9 + p.length ≤ MAX_BUFFER_LEN) :
    unpack_message e
        ((pack_message e t (c_lit p) dst MAX_BUFFER_LEN).2.take
          (pack_message e t (c_lit p) dst MAX_BUFFER_LEN).1.toNat)
        (pack_message e t (c_lit p) dst MAX_BUFFER_LEN).1 0 msg_type data data_size =
      if p.length ≥ data_size then ⟨-1, 0, msg_type, data⟩
      else ⟨1, 9 + p.length, t, (memcpy data 0 p p.length).set p.length 0⟩ := by
  simp only [MAX_BUFFER_LEN] at hfit
  rw [pack_message_eq e t p dst MAX_BUFFER_LEN hp (by simp only [HEADER_SIZE, MAX_BUFFER_LEN]; omega)
    (by simp only [MAX_BUFFER_LEN]; omega)]
  simp only [Int.toNat_ofNat]
  have hl : (frame_bytes t p).length = 9 + p.length := by
    simp [frame_bytes, frame_header_length]
  rw [← hl, List.take_left']
  have := unpack_at_header e [] p t p.length (9 + p.length : Nat) msg_type data data_size
    (by omega) (by simp) (by omega)
  simp only [List.nil_append, List.length_nil, Nat.cast_zero, zero_add] at this
  rw [hl]
  unfold frame_bytes
  rw [this, if_neg (by omega)]
  simp


theorem c_str_append_nul_any (p rest : List Byte) : c_str (p ++ 0 :: rest) = c_str p := by
  unfold c_str
  induction p with
  | nil => simp
  | cons a p ih =>
    by_cases ha : a = 0
    · simp [List.takeWhile_cons, ha]
    · simp only [List.cons_append, List.takeWhile_cons, ne_eq, ha, not_false_eq_true,
        decide_True, ↓reduceIte, ih]

theorem c_str_nul_free (p : List Byte) (hp : (0 : Byte) ∉ p) : c_str p = p := by
  unfold c_str
  rw [List.takeWhile_eq_self_iff]
  intro x hx
  have : x ≠ 0 := fun h => hp (h ▸ hx)
  simpa using this

theorem encode_frames_append (fs gs : List (Byte × List Byte)) :
    encode_frames (fs ++ gs) = encode_frames fs ++ encode_frames gs := by
  induction fs with
  | nil => rfl
  | cons f fs ih =>
    show frame_bytes f.1 f.2 ++ encode_frames (fs ++ gs) = _
    rw [ih]
    simp only [encode_frames, List.append_assoc]

theorem frame_bytes_length (t : Byte) (p : List Byte) :
    (frame_bytes t p).length = 9 + p.length := by
  simp [frame_bytes, frame_header_length]

/-- One iteration of the loop on a complete frame that the receiver can hold. -/
theorem process_messages_step (e : Endian) (pre tail p : List Byte) (t : Byte) (fuel : Nat)
    (buffer_len : Int) (acc : List (Byte × List Byte)) (hp : p.length < MAX_MESSAGE_LEN)
    (hle : (pre.length : Int) + 9 + p.length ≤ buffer_len) (hbl : buffer_len < 2147483648) :
    process_messages e (pre ++ frame_bytes t p ++ tail) (fuel + 1) buffer_len pre.length acc =
      process_messages e (pre ++ frame_bytes t p ++ tail) fuel buffer_len
        ((pre ++ frame_bytes t p).length : Int) (acc ++ [(t, c_str p)]) := by
  have hp' : p.length < 1024 := hp
  have hu := unpack_at_header e pre (p ++ tail) t p.length buffer_len 0
    (List.replicate MAX_MESSAGE_LEN 0) MAX_MESSAGE_LEN (by omega) (by omega) hbl
  rw [if_neg (by omega), if_neg (by omega)] at hu
  have hd := memcpy_set_terminator (List.replicate MAX_MESSAGE_LEN 0) p tail
    (by rw [List.length_replicate]; exact hp)
  rw [hd] at hu
  have hb : pre ++ frame_bytes t p ++ tail = pre ++ frame_header t p.length ++ (p ++ tail) := by
    simp [frame_bytes]
  rw [hb]
  conv_lhs => unfold process_messages
  rw [if_pos (by omega), hu]
  simp only [↓reduceIte, c_str_append_nul_any]
  congr 1
  simp [frame_bytes, frame_header_length]
  omega

/-- The loop walks a run of complete frames, dispatching each in order. -/
theorem process_messages_frames (e : Endian) (fs : List (Byte × List Byte)) :
    ∀ (pre tail : List Byte) (fuel : Nat) (buffer_len : Int) (acc : List (Byte × List Byte)),
      (∀ f ∈ fs, f.2.length < MAX_MESSAGE_LEN) →
      ((pre ++ encode_frames fs).length : Int) ≤ buffer_len → buffer_len < 2147483648 →
      process_messages e (pre ++ encode_frames fs ++ tail) (fuel + fs.length) buffer_len
          pre.length acc =
        process_messages e (pre ++ encode_frames fs ++ tail) fuel buffer_len
          ((pre ++ encode_frames fs).length : Int) (acc ++ fs.map (fun f => (f.1, c_str f.2))) := by
  induction fs with
  | nil =>
    intro pre tail fuel buffer_len acc _ _ _
    simp [encode_frames]
  | cons f fs ih =>
    intro pre tail fuel buffer_len acc hsz hle hbl
    have hf : f.2.length < MAX_MESSAGE_LEN := hsz f (List.mem_cons_self _ _)
    have hsz2 : ∀ g ∈ fs, g.2.length < MAX_MESSAGE_LEN :=
      fun g hg => hsz g (List.mem_cons_of_mem _ hg)
    have hb : pre ++ encode_frames (f :: fs) ++ tail
        = pre ++ frame_bytes f.1 f.2 ++ (encode_frames fs ++ tail) := by
      simp only [encode_frames, List.append_assoc]
    have hb2 : pre ++ encode_frames (f :: fs) ++ tail
        = (pre ++ frame_bytes f.1 f.2) ++ encode_frames fs ++ tail := by
      simp only [encode_frames, List.append_assoc]
    have hlen : (pre ++ encode_frames (f :: fs)).length
        = ((pre ++ frame_bytes f.1 f.2) ++ encode_frames fs).length := by
      simp only [encode_frames, List.append_assoc]
    have hle2 : (((pre ++ frame_bytes f.1 f.2) ++ encode_frames fs).length : Int) ≤ buffer_len := by
      rw [← hlen]; exact hle
    have hle1 : (pre.length : Int) + 9 + f.2.length ≤ buffer_len := by
      have := hle2
      simp only [List.length_append, frame_bytes_length, Nat.cast_add] at this
      omega
    have e1 : fuel + (f :: fs).length = (fuel + fs.length) + 1 := by
      simp only [List.length_cons]; omega
    rw [e1, hb, process_messages_step e pre (encode_frames fs ++ tail) f.2 f.1 (fuel + fs.length)
      buffer_len acc hf hle1 hbl, ← hb, hb2,
      ih (pre ++ frame_bytes f.1 f.2) tail fuel buffer_len (acc ++ [(f.1, c_str f.2)]) hsz2 hle2 hbl]
    simp only [List.map_cons, List.append_assoc, List.singleton_append, encode_frames]

theorem process_messages_at_end (e : Endian) (buffer : List Byte) (fuel : Nat)
    (buffer_len offset : Int) (acc : List (Byte × List Byte)) (h : buffer_len ≤ offset) :
    process_messages e buffer (fuel + 1) buffer_len offset acc
      = some ⟨buffer_len, offset, acc, false⟩ := by
  unfold process_messages
  rw [if_neg (by omega)]


theorem receive_pass_append (e : Endian) (fuel : Nat) (st : RecvState) (c : List Byte)
    (h0 : 0 ≤ st.buffer_len) (hlt : st.buffer_len + c.length < 8192) :
    receive_pass e fuel st c =
      (process_messages e
        (st.receive_buffer.take st.buffer_len.toNat ++ c
          ++ st.receive_buffer.drop (st.buffer_len.toNat + c.length))
        fuel (st.buffer_len + c.length) 0 []).map
        (compact (st.receive_buffer.take st.buffer_len.toNat ++ c
          ++ st.receive_buffer.drop (st.buffer_len.toNat + c.length))) := by
  unfold receive_pass
  have w : wrapInt32 (st.buffer_len + (c.length : Int)) = st.buffer_len + c.length :=
    wrapInt32_of_range _ (by omega) (by omega)
  simp only [w, RECEIVE_BUFFER_SIZE, MAX_BUFFER_LEN, memcpy, Int.toNat_ofNat, List.take_length]
  rw [if_pos (by omega)]

theorem receive_pass_overflow (e : Endian) (fuel : Nat) (st : RecvState) (c : List Byte)
    (hge : 8192 ≤ st.buffer_len + c.length) (hlt : st.buffer_len + c.length < 2147483648) :
    receive_pass e fuel st c = some ⟨st.receive_buffer, 0, [], true, false⟩ := by
  unfold receive_pass
  have w : wrapInt32 (st.buffer_len + (c.length : Int)) = st.buffer_len + c.length :=
    wrapInt32_of_range _ (by omega) (by omega)
  simp only [w, RECEIVE_BUFFER_SIZE, MAX_BUFFER_LEN]
  rw [if_neg (by omega)]

/-- The buffer after the append step when the occupied part is `q`. -/
theorem receive_pass_on_retained (e : Endian) (fuel : Nat) (q junk c : List Byte)
    (hlt : q.length + c.length < 8192) :
    receive_pass e fuel ⟨q ++ junk, q.length⟩ c =
      (process_messages e (q ++ c ++ junk.drop c.length) fuel ((q ++ c).length : Int) 0 []).map
        (compact (q ++ c ++ junk.drop c.length)) := by
  rw [receive_pass_append e fuel _ c (by simp) (by simp only; omega)]
  simp only [Int.toNat_ofNat, List.take_left', List.length_append, Nat.cast_add]
  have : (q ++ junk).drop (q.length + c.length) = junk.drop c.length := by
    rw [← List.drop_drop, List.drop_left]
  rw [this]

theorem compact_all_consumed (buffer : List Byte) (n : Int) (acc : List (Byte × List Byte)) :
    compact buffer ⟨n, n, acc, false⟩ = ⟨buffer, 0, acc, false, false⟩ ∨ n ≤ 0 := by
  by_cases h : n ≤ 0
  · exact Or.inr h
  · left
    unfold compact
    simp only [gt_iff_lt, sub_self, Int.toNat_zero]
    rw [if_pos (by omega)]
    simp [memcpy, wrapInt32]


theorem rd_inside (pre tail junk : List Byte) (i : Nat) (hi : i < tail.length) :
    rd (pre ++ tail ++ junk) ((pre.length : Int) + (i : Int)) = rd tail (i : Int) := by
  rw [List.append_assoc, rd_append_right]
  unfold rd
  rw [List.getD_eq_getElem?_getD, List.getD_eq_getElem?_getD, List.getElem?_append_left hi]
  simp

theorem wire_header_inside (pre tail junk : List Byte) (h9 : 9 ≤ tail.length) :
    wire_magic (pre ++ tail ++ junk) pre.length = wire_magic tail 0 ∧
    wire_version (pre ++ tail ++ junk) pre.length = wire_version tail 0 ∧
    wire_type (pre ++ tail ++ junk) pre.length = wire_type tail 0 ∧
    wire_length (pre ++ tail ++ junk) pre.length = wire_length tail 0 := by
  have r : ∀ i : Nat, i < 9 →
      rd (pre ++ tail ++ junk) ((pre.length : Int) + (i : Int)) = rd tail (i : Int) :=
    fun i hi => rd_inside pre tail junk i (by omega)
  have r0 := r 0 (by omega)
  have r1 := r 1 (by omega)
  have r2 := r 2 (by omega)
  have r4 := r 4 (by omega)
  have r5 := r 5 (by omega)
  have r6 := r 6 (by omega)
  have r7 := r 7 (by omega)
  have r8 := r 8 (by omega)
  simp only [Nat.cast_zero, add_zero, Nat.cast_one, Nat.cast_ofNat] at r0 r1 r2 r4 r5 r6 r7 r8
  simp only [wire_magic, wire_version, wire_type, wire_length, r0, r1, r2, r4, r5, r6, r7, r8,
    zero_add, and_self]

theorem process_messages_invalid (e : Endian) (buffer : List Byte) (fuel : Nat)
    (buffer_len offset : Int) (acc : List (Byte × List Byte)) (h0 : 0 ≤ offset)
    (h9 : offset + 9 ≤ buffer_len) (hbl : buffer_len < 2147483648)
    (hbad : wire_magic buffer offset ≠ MAGIC ∨ wire_version buffer offset ≠ VERSION) :
    process_messages e buffer (fuel + 1) buffer_len offset acc = some ⟨0, 0, acc, true⟩ := by
  have w0 : wrapInt32 (buffer_len - offset) = buffer_len - offset :=
    wrapInt32_of_range _ (by omega) (by omega)
  have hlt : offset < buffer_len := by omega
  have h9' : ¬ (buffer_len - offset < 9) := by omega
  unfold process_messages
  rw [if_pos hlt, unpack_message_eq, w0, if_neg h9']
  rcases hbad with hm | hv
  · rw [if_pos hm]
    simp
  · by_cases hm : wire_magic buffer offset ≠ MAGIC
    · rw [if_pos hm]
      simp
    · rw [if_neg hm, if_pos hv]
      simp

theorem process_messages_oversize (e : Endian) (pre tail : List Byte) (t : Byte) (n fuel : Nat)
    (buffer_len : Int) (acc : List (Byte × List Byte)) (hn : MAX_MESSAGE_LEN ≤ n)
    (hle : (pre.length : Int) + 9 + n ≤ buffer_len) (hbl : buffer_len < 2147483648) :
    process_messages e (pre ++ frame_header t n ++ tail) (fuel + 1) buffer_len pre.length acc
      = some ⟨0, 0, acc, true⟩ := by
  have hu := unpack_at_header e pre tail t n buffer_len 0
    (List.replicate MAX_MESSAGE_LEN 0) MAX_MESSAGE_LEN (by omega) (by omega) hbl
  rw [if_neg (by omega), if_pos hn] at hu
  unfold process_messages
  rw [if_pos (by omega), hu]
  simp

theorem process_messages_incomplete (e : Endian) (pre tail : List Byte) (t : Byte) (n fuel : Nat)
    (buffer_len : Int) (acc : List (Byte × List Byte)) (hn : (n : Int) + 9 < 2147483648)
    (h9 : (pre.length : Int) + 9 ≤ buffer_len)
    (hlt : buffer_len < (pre.length : Int) + 9 + n) (hbl : buffer_len < 2147483648) :
    process_messages e (pre ++ frame_header t n ++ tail) (fuel + 1) buffer_len pre.length acc
      = some ⟨buffer_len, pre.length, acc, false⟩ := by
  have hu := unpack_at_header e pre tail t n buffer_len 0
    (List.replicate MAX_MESSAGE_LEN 0) MAX_MESSAGE_LEN hn h9 hbl
  rw [if_pos hlt] at hu
  unfold process_messages
  rw [if_pos (by omega), hu]
  simp

theorem process_messages_short (e : Endian) (buffer : List Byte) (fuel : Nat)
    (buffer_len offset : Int) (acc : List (Byte × List Byte))
    (hlt : buffer_len < offset + 9) :
    process_messages e buffer (fuel + 1) buffer_len offset acc
      = some ⟨buffer_len, offset, acc, false⟩ := by
  unfold process_messages
  by_cases h : offset < buffer_len
  · have w0 : wrapInt32 (buffer_len - offset) = buffer_len - offset :=
      wrapInt32_of_range _ (by omega) (by omega)
    have h9 : buffer_len - offset < 9 := by omega
    rw [if_pos h, unpack_message_eq, w0, if_pos h9]
    simp
  · rw [if_neg h]


theorem encode_frames_length_ge (fs : List (Byte × List Byte)) :
    9 * fs.length ≤ (encode_frames fs).length := by
  induction fs with
  | nil => simp [encode_frames]
  | cons f fs ih =>
    simp only [encode_frames, List.length_append, frame_bytes_length, List.length_cons]
    omega

/-- A pass over a buffer whose occupied part, after the append, is a run of complete frames
followed by `tail`: the frames are dispatched and the loop goes on at `tail`. -/
theorem receive_pass_frames (e : Endian) (fuel : Nat) (st : RecvState) (c : List Byte)
    (fs : List (Byte × List Byte)) (tail : List Byte)
    (h0 : 0 ≤ st.buffer_len) (hroom : st.buffer_len + c.length < 8192)
    (hocc : st.receive_buffer.take st.buffer_len.toNat ++ c = encode_frames fs ++ tail)
    (hfs : ∀ f ∈ fs, f.2.length < MAX_MESSAGE_LEN)
    (hlen : ((encode_frames fs ++ tail).length : Int) = st.buffer_len + c.length) :
    receive_pass e (fuel + fs.length) st c =
      (process_messages e
        (encode_frames fs ++ tail ++ st.receive_buffer.drop (st.buffer_len.toNat + c.length))
        fuel (st.buffer_len + c.length) ((encode_frames fs).length : Int)
        (fs.map (fun f => (f.1, c_str f.2)))).map
        (compact (encode_frames fs ++ tail
          ++ st.receive_buffer.drop (st.buffer_len.toNat + c.length))) := by
  rw [receive_pass_append e _ st c h0 hroom, hocc]
  have hle : ((([] : List Byte) ++ encode_frames fs).length : Int) ≤ st.buffer_len + c.length := by
    rw [← hlen]
    simp only [List.nil_append, List.length_append, Nat.cast_add]
    omega
  have := process_messages_frames e fs [] (tail ++ st.receive_buffer.drop (st.buffer_len.toNat + c.length))
    fuel (st.buffer_len + c.length) [] hfs hle (by omega)
  simp only [List.nil_append, List.length_nil, Nat.cast_zero, ← List.append_assoc] at this
  rw [this]

theorem compact_consumed (buffer : List Byte) (n : Int) (acc : List (Byte × List Byte))
    (hn : 0 ≤ n) :
    compact buffer ⟨n, n, acc, false⟩ = ⟨buffer, 0, acc, false, false⟩ := by
  rcases compact_all_consumed buffer n acc with h | h
  · exact h
  · have : n = 0 := by omega
    subst this
    simp [compact]

theorem map_c_str_nul_free (fs : List (Byte × List Byte)) (h : ∀ f ∈ fs, (0 : Byte) ∉ f.2) :
    fs.map (fun f => (f.1, c_str f.2)) = fs := by
  induction fs with
  | nil => rfl
  | cons f fs ih =>
    have h1 := c_str_nul_free f.2 (h f (List.mem_cons_self _ _))
    have h2 := ih (fun g hg => h g (List.mem_cons_of_mem _ hg))
    simp only [List.map_cons, h1, h2]


/-- The pass that completes a frame: `q` is what the buffer already holds of it, `c` the
bytes that arrive. -/
theorem receive_pass_completes (e : Endian) (fuel : Nat) (q junk c p : List Byte) (t : Byte)
    (hqc : q ++ c = frame_bytes t p) (hfit : 9 + p.length < 8192) :
    receive_pass e (fuel + 2) ⟨q ++ junk, q.length⟩ c =
      some ⟨frame_bytes t p ++ junk.drop c.length, 0,
        if p.length < MAX_MESSAGE_LEN then [(t, c_str p)] else [], false,
        decide (MAX_MESSAGE_LEN ≤ p.length)⟩ := by
  have hlen : q.length + c.length = 9 + p.length := by
    rw [← List.length_append, hqc, frame_bytes_length]
  rw [receive_pass_on_retained e _ q junk c (by omega), hqc, frame_bytes_length]
  by_cases hp : p.length < MAX_MESSAGE_LEN
  · have h1 := process_messages_step e [] (junk.drop c.length) p t (fuel + 1)
      ((9 + p.length : Nat) : Int) [] hp (by simp) (by omega)
    simp only [List.nil_append, List.length_nil, Nat.cast_zero] at h1
    rw [h1, process_messages_at_end e _ fuel _ _ _ (by rw [frame_bytes_length])]
    simp only [Option.map_some', frame_bytes_length]
    rw [compact_consumed _ _ _ (by omega), if_pos hp]
    have : decide (MAX_MESSAGE_LEN ≤ p.length) = false := by
      simp only [decide_eq_false_iff_not]; omega
    rw [this]
  · have hp' : MAX_MESSAGE_LEN ≤ p.length := by omega
    have h1 := process_messages_oversize e [] (p ++ junk.drop c.length) t p.length (fuel + 1)
      ((9 + p.length : Nat) : Int) [] hp' (by simp) (by omega)
    simp only [List.nil_append, List.length_nil, Nat.cast_zero] at h1
    have hb : frame_bytes t p ++ junk.drop c.length
        = frame_header t p.length ++ (p ++ junk.drop c.length) := by
      simp only [frame_bytes, List.append_assoc]
    rw [hb, h1, if_neg hp]
    have : decide (MAX_MESSAGE_LEN ≤ p.length) = true := by
      simp only [decide_eq_true_eq]; exact hp'
    rw [this]
    simp [compact]

/-- The pass over bytes that leave the frame incomplete: nothing is dispatched and all the
bytes are retained. -/
theorem receive_pass_incomplete_frame (e : Endian) (fuel : Nat) (q junk c p : List Byte) (t : Byte)
    (k : Nat) (hqc : q ++ c = (frame_bytes t p).take k) (hk : k < 9 + p.length)
    (hfit : 9 + p.length < 8192) :
    receive_pass e (fuel + 1) ⟨q ++ junk, q.length⟩ c =
      some ⟨q ++ c ++ junk.drop c.length, (q ++ c).length, [], false, false⟩ := by
  have hlen : (q ++ c).length = k := by
    rw [hqc, List.length_take, frame_bytes_length]; omega
  have hlen' : q.length + c.length = k := by rw [← List.length_append]; exact hlen
  rw [receive_pass_on_retained e _ q junk c (by omega)]
  by_cases h9 : k < 9
  · rw [process_messages_short e _ fuel _ _ _ (by rw [hlen]; omega)]
    simp [compact]
  · have hsplit : q ++ c = frame_header t p.length ++ p.take (k - 9) := by
      rw [hqc, frame_bytes, List.take_append_eq_append_take, frame_header_length,
        List.take_of_length_le (by rw [frame_header_length]; omega)]
    have h1 := process_messages_incomplete e [] (p.take (k - 9) ++ junk.drop c.length) t
      p.length fuel (k : Int) [] (by omega) (by simp; omega) (by simp; omega) (by omega)
    simp only [List.nil_append, List.length_nil, Nat.cast_zero] at h1
    rw [hlen, hsplit, List.append_assoc, h1]
    simp [compact]


theorem flatten_ne_nil_of_nonempty (cs : List (List Byte)) (hne : cs ≠ [])
    (hall : ∀ c ∈ cs, c ≠ []) : 0 < cs.flatten.length := by
  cases cs with
  | nil => exact absurd rfl hne
  | cons c cs =>
    have hc := hall c (List.mem_cons_self _ _)
    have : 0 < c.length := List.length_pos.mpr hc
    simp only [List.flatten_cons, List.length_append]
    omega

theorem thread_single (e : Endian) (fuel : Nat) (st : RecvState) (c : List Byte) (r : PassResult)
    (h : receive_pass e fuel st c = some r) :
    receive_messages_thread e fuel st [c] = some (⟨r.receive_buffer, r.buffer_len⟩, r.dispatched) := by
  rw [receive_messages_thread, h]
  simp only [receive_messages_thread, List.append_nil]

theorem thread_cons (e : Endian) (fuel : Nat) (st : RecvState) (c : List Byte)
    (cs : List (List Byte)) (r : PassResult) (res : RecvState × List (Byte × List Byte))
    (h : receive_pass e fuel st c = some r)
    (h2 : receive_messages_thread e fuel ⟨r.receive_buffer, r.buffer_len⟩ cs = some res) :
    receive_messages_thread e fuel st (c :: cs) = some (res.1, r.dispatched ++ res.2) := by
  rw [receive_messages_thread, h]
  simp only [h2]

/-- Feeding the rest of a frame chunk by chunk: the frame is dispatched by the pass that
completes it and by no other. -/
theorem thread_delivers_frame (e : Endian) (fuel : Nat) (t : Byte) (p : List Byte)
    (hfit : 9 + p.length < 8192) :
    ∀ (chunks : List (List Byte)) (q junk : List Byte), chunks ≠ [] →
      (∀ c ∈ chunks, c ≠ []) → q ++ chunks.flatten = frame_bytes t p →
      receive_messages_thread e (fuel + 2) ⟨q ++ junk, q.length⟩ chunks =
        some (⟨frame_bytes t p ++ junk.drop chunks.flatten.length, 0⟩,
          if p.length < MAX_MESSAGE_LEN then [(t, c_str p)] else []) := by
  intro chunks
  induction chunks with
  | nil => intro q junk h; exact absurd rfl h
  | cons c cs ih =>
    intro q junk _ hall hcat
    by_cases hcs : cs = []
    · subst hcs
      simp only [List.flatten_cons, List.flatten_nil, List.append_nil] at hcat ⊢
      exact thread_single e _ _ c _ (receive_pass_completes e fuel q junk c p t hcat hfit)
    · have hall2 : ∀ c' ∈ cs, c' ≠ [] := fun c' h => hall c' (List.mem_cons_of_mem _ h)
      have hpos := flatten_ne_nil_of_nonempty cs hcs hall2
      have hcat2 : (q ++ c) ++ cs.flatten = frame_bytes t p := by
        rw [← hcat]; simp only [List.flatten_cons, List.append_assoc]
      have hl : (q ++ c).length + cs.flatten.length = 9 + p.length := by
        rw [← List.length_append, hcat2, frame_bytes_length]
      have htake : q ++ c = (frame_bytes t p).take (q ++ c).length := by
        rw [← hcat2, List.take_left']
        rfl
      have hk : (q ++ c).length < 9 + p.length := by omega
      have hpass := receive_pass_incomplete_frame e (fuel + 1) q junk c p t (q ++ c).length htake hk hfit
      have hrest := ih (q ++ c) (junk.drop c.length) hcs hall2 hcat2
      have := thread_cons e (fuel + 2) _ c cs _ _ hpass hrest
      rw [this]
      simp only [List.nil_append, List.drop_drop, List.flatten_cons, List.length_append]

/-- What a call of `unpack_message` with `data_size = 1024` can return inside the buffer,
and where a successful call leaves the cursor. -/
theorem unpack_message_progress (e : Endian) (buffer : List Byte) (buffer_len offset : Int)
    (msg_type : Byte) (data : List Byte) (h0 : 0 ≤ offset) (hlt : offset < buffer_len)
    (hbl : buffer_len < 2147483648) :
    ((unpack_message e buffer buffer_len offset msg_type data MAX_MESSAGE_LEN).ret = 1 ∧
      offset + 9 ≤ (unpack_message e buffer buffer_len offset msg_type data MAX_MESSAGE_LEN).offset ∧
      (unpack_message e buffer buffer_len offset msg_type data MAX_MESSAGE_LEN).offset
        ≤ buffer_len) ∨
    (unpack_message e buffer buffer_len offset msg_type data MAX_MESSAGE_LEN).ret = 0 ∨
    (unpack_message e buffer buffer_len offset msg_type data MAX_MESSAGE_LEN).ret = -1 := by
  have w0 : wrapInt32 (buffer_len - offset) = buffer_len - offset :=
    wrapInt32_of_range _ (by omega) (by omega)
  rw [unpack_message_eq, w0]
  generalize wire_length buffer offset = L
  generalize wire_magic buffer offset = M
  generalize wire_version buffer offset = V
  generalize wire_type buffer offset = T
  by_cases h5 : L ≥ MAX_MESSAGE_LEN
  · right
    rw [if_pos h5]
    split_ifs <;> simp
  rw [if_neg h5]
  have hL : L < 1024 := by simp only [MAX_MESSAGE_LEN] at h5; omega
  clear h5
  have w1 : wrapInt32 (L : Int) = L := wrapInt32_of_range _ (by omega) (by omega)
  have w2 : wrapInt32 (9 + (L : Int)) = 9 + L := wrapInt32_of_range _ (by omega) (by omega)
  have w3 : (((9 + L) % 4294967296 : Nat) : Int) = 9 + L := by omega
  rw [w1, w2, w3]
  by_cases h1 : buffer_len - offset < 9
  · rw [if_pos h1]; right; left; rfl
  rw [if_neg h1]
  by_cases h2 : M ≠ MAGIC
  · rw [if_pos h2]; right; right; rfl
  rw [if_neg h2]
  by_cases h3 : V ≠ VERSION
  · rw [if_pos h3]; right; right; rfl
  rw [if_neg h3]
  clear h2 h3
  by_cases h4 : buffer_len - offset < 9 + (L : Int)
  · rw [if_pos h4]; right; left; rfl
  rw [if_neg h4]
  left
  have w4 : wrapInt32 (offset + (9 + (L : Int))) = offset + (9 + L) :=
    wrapInt32_of_range _ (by omega) (by omega)
  simp only [w4]
  refine ⟨trivial, by omega, by omega⟩

/-- The loop returns: `buffer_len - offset + 1` iterations always suffice. -/
theorem process_messages_returns (e : Endian) (buffer : List Byte) :
    ∀ (fuel : Nat) (buffer_len offset : Int) (acc : List (Byte × List Byte)),
      0 ≤ offset → buffer_len < 2147483648 → (buffer_len - offset).toNat < fuel →
      ∃ l, process_messages e buffer fuel buffer_len offset acc = some l := by
  intro fuel
  induction fuel with
  | zero => intro buffer_len offset acc _ _ h; omega
  | succ n ih =>
    intro buffer_len offset acc h0 hbl hf
    unfold process_messages
    by_cases hlt : offset < buffer_len
    · rw [if_pos hlt]
      rcases unpack_message_progress e buffer buffer_len offset 0
        (List.replicate MAX_MESSAGE_LEN 0) h0 hlt hbl with ⟨h1, h2, h3⟩ | h1 | h1
      · simp only [h1, ↓reduceIte]
        exact ih _ _ _ (by omega) hbl (by omega)
      · simp only [h1]
        exact ⟨_, rfl⟩
      · simp only [h1]
        exact ⟨_, rfl⟩
    · rw [if_neg hlt]
      exact ⟨_, rfl⟩

theorem compact_overflow_false (buffer : List Byte) (l : LoopState) :
    (compact buffer l).overflow = false := by
  unfold compact
  split <;> rfl


theorem rd_set_ne (buffer : List Byte) (i : Nat) (j : Int) (b : Byte) (h : i ≠ j.toNat) :
    rd (buffer.set i b) j = rd buffer j := by
  unfold rd
  rw [List.getD_eq_getElem?_getD, List.getD_eq_getElem?_getD, List.getElem?_set_ne h]

/-- The reserved byte (index 3 of the header) is not read by `unpack_message`. -/
theorem unpack_message_reserved (e : Endian) (buffer : List Byte) (buffer_len offset : Int)
    (msg_type : Byte) (data : List Byte) (data_size : Nat) (b : Byte) (h0 : 0 ≤ offset) :
    unpack_message e (buffer.set (offset.toNat + 3) b) buffer_len offset msg_type data data_size
      = unpack_message e buffer buffer_len offset msg_type data data_size := by
  have r : ∀ k : Int, 0 ≤ k → k ≠ 3 →
      rd (buffer.set (offset.toNat + 3) b) (offset + k) = rd buffer (offset + k) :=
    fun k hk hk3 => rd_set_ne buffer _ _ b (by omega)
  have r0 := r 0 (by omega) (by omega)
  have r1 := r 1 (by omega) (by omega)
  have r2 := r 2 (by omega) (by omega)
  have r4 := r 4 (by omega) (by omega)
  have r5 := r 5 (by omega) (by omega)
  have r6 := r 6 (by omega) (by omega)
  have r7 := r 7 (by omega) (by omega)
  have r8 := r 8 (by omega) (by omega)
  rw [add_zero] at r0
  have hd : (buffer.set (offset.toNat + 3) b).drop (offset.toNat + 9)
      = buffer.drop (offset.toNat + 9) := List.drop_set_of_lt b buffer (by omega)
  rw [unpack_message_eq, unpack_message_eq]
  simp only [wire_magic, wire_version, wire_type, wire_length, r0, r1, r2, r4, r5, r6, r7, r8, hd]

theorem rd_take_append (buffer ext : List Byte) (n : Nat) (j : Int) (hj : j.toNat < n)
    (hn : n ≤ buffer.length) :
    rd (buffer.take n ++ ext) j = rd buffer j := by
  unfold rd
  rw [List.getD_eq_getElem?_getD, List.getD_eq_getElem?_getD,
    List.getElem?_append_left (by rw [List.length_take]; omega), List.getElem?_take_of_lt hj]

theorem wire_header_take_append (buffer ext : List Byte) (n : Nat) (offset : Int)
    (h0 : 0 ≤ offset) (h9 : offset.toNat + 9 ≤ n) (hn : n ≤ buffer.length) :
    wire_magic (buffer.take n ++ ext) offset = wire_magic buffer offset ∧
    wire_version (buffer.take n ++ ext) offset = wire_version buffer offset ∧
    wire_type (buffer.take n ++ ext) offset = wire_type buffer offset ∧
    wire_length (buffer.take n ++ ext) offset = wire_length buffer offset := by
  have r : ∀ k : Int, 0 ≤ k → k < 9 →
      rd (buffer.take n ++ ext) (offset + k) = rd buffer (offset + k) :=
    fun k hk hk9 => rd_take_append buffer ext n _ (by omega) hn
  have r0 := r 0 (by omega) (by omega)
  have r1 := r 1 (by omega) (by omega)
  have r2 := r 2 (by omega) (by omega)
  have r4 := r 4 (by omega) (by omega)
  have r5 := r 5 (by omega) (by omega)
  have r6 := r 6 (by omega) (by omega)
  have r7 := r 7 (by omega) (by omega)
  have r8 := r 8 (by omega) (by omega)
  rw [add_zero] at r0
  simp only [wire_magic, wire_version, wire_type, wire_length, r0, r1, r2, r4, r5, r6, r7, r8,
    and_self]

/-- A call on a complete frame the caller can hold returns 1. -/
theorem unpack_message_complete (e : Endian) (buffer : List Byte) (buffer_len offset : Int)
    (msg_type : Byte) (data : List Byte) (data_size : Nat) (h0 : 0 ≤ offset)
    (hbl : buffer_len < 2147483648) (hm : wire_magic buffer offset = MAGIC)
    (hv : wire_version buffer offset = VERSION) (hl : wire_length buffer offset < data_size)
    (hall : offset + 9 + (wire_length buffer offset : Int) ≤ buffer_len) :
    unpack_message e buffer buffer_len offset msg_type data data_size =
      ⟨1, offset + 9 + (wire_length buffer offset : Int), wire_type buffer offset,
        (memcpy data 0 (buffer.drop (offset.toNat + 9)) (wire_length buffer offset)).set
          (wire_length buffer offset) 0⟩ := by
  rw [unpack_message_eq, if_neg (show ¬ (wire_magic buffer offset ≠ MAGIC) by rw [hm]; simp),
    if_neg (show ¬ (wire_version buffer offset ≠ VERSION) by rw [hv]; simp)]
  clear hm hv
  generalize wire_length buffer offset = L at hl hall ⊢
  generalize wire_type buffer offset = T
  have w0 : wrapInt32 (buffer_len - offset) = buffer_len - offset :=
    wrapInt32_of_range _ (by omega) (by omega)
  have w1 : wrapInt32 (L : Int) = L := wrapInt32_of_range _ (by omega) (by omega)
  have w2 : wrapInt32 (9 + (L : Int)) = 9 + L := wrapInt32_of_range _ (by omega) (by omega)
  have w3 : (((9 + L) % 4294967296 : Nat) : Int) = 9 + L := by omega
  have w4 : wrapInt32 (offset + (9 + (L : Int))) = offset + 9 + L := by
    rw [wrapInt32_of_range _ (by omega) (by omega)]; omega
  rw [w0, w1, w2, w3, w4, if_neg (show ¬ (buffer_len - offset < 9) by omega),
    if_neg (show ¬ (buffer_len - offset < 9 + (L : Int)) by omega),
    if_neg (show ¬ (L ≥ data_size) by omega)]

theorem send_message_accepted (e : Endian) (t : Byte) (p : List Byte) (hp : (0 : Byte) ∉ p)
    (hfit : 9 + p.length ≤ MAX_BUFFER_LEN) :
    send_message e true t (c_lit p) = (1, [frame_bytes t p]) := by
  simp only [MAX_BUFFER_LEN] at hfit
  unfold send_message
  rw [pack_message_eq e t p _ MAX_BUFFER_LEN hp (by simp only [HEADER_SIZE, MAX_BUFFER_LEN]; omega)
    (by simp only [MAX_BUFFER_LEN]; omega)]
  simp only [Int.toNat_ofNat]
  rw [if_neg (by omega)]
  simp only [↓reduceIte]
  rw [List.take_left' (frame_bytes_length t p)]

/-- With `logged_in` never set, the wait loop runs until `time(NULL)` reads
`start_time + 5` and leaves through the timeout. -/
theorem wait_for_login_timeout (env : LoginEnv) (hnever : ∀ t, env.logged_in t = 0)
    (start : Nat) :
    ∀ (d fuel clock : Nat), clock + d = (start + 5) * 10 → d < fuel →
      wait_for_login env (start : Int) fuel clock = some (false, (start + 5) * 10) := by
  intro d
  induction d with
  | zero =>
    intro fuel clock hc hf
    obtain ⟨k, rfl⟩ : ∃ k, fuel = k + 1 := ⟨fuel - 1, by omega⟩
    unfold wait_for_login time_now
    rw [if_neg (by omega)]
    simp only [Nat.add_zero] at hc
    rw [hc]
  | succ d ih =>
    intro fuel clock hc hf
    obtain ⟨k, rfl⟩ : ∃ k, fuel = k + 1 := ⟨fuel - 1, by omega⟩
    unfold wait_for_login time_now
    rw [if_pos (by omega), if_neg (by rw [hnever]; simp)]
    exact ih k (clock + 1) (by omega) (by omega)

theorem login_loop_timeout_step (e : Endian) (env : LoginEnv) (nickname : List Byte)
    (hnick : (0 : Byte) ∉ nickname) (hlen : nickname.length ≤ 50)
    (hnever : ∀ t, env.logged_in t = 0) (hacc : ∀ k, env.accepts k = true)
    (fuel : Nat) (s : LoginState) (hatt : s.attempt < 3) (hfuel : 50 < fuel) :
    login_loop e env nickname (fuel + 1) s =
      login_loop e env nickname fuel
        ⟨s.attempt + 1, (s.clock / 10 + 5) * 10, s.sends + 1,
          s.log ++ [LoginEvent.sent s.clock (frame_bytes LOGIN_REQUEST nickname),
            LoginEvent.timeout ((s.clock / 10 + 5) * 10)]⟩ := by
  have hsend := send_message_accepted e LOGIN_REQUEST nickname hnick
    (by simp only [MAX_BUFFER_LEN]; omega)
  have hwait := wait_for_login_timeout env hnever (s.clock / 10)
    ((s.clock / 10 + 5) * 10 - s.clock) fuel s.clock (by omega) (by omega)
  conv_lhs => unfold login_loop
  rw [if_pos hatt, hacc, hsend]
  simp only [ne_eq, one_ne_zero, not_false_eq_true, ↓reduceIte, time_now, hwait, hnever,
    List.map_cons, List.map_nil, List.append_assoc, List.singleton_append]


theorem frames_size_cons (f : Byte × List Byte) (fs : List (Byte × List Byte)) :
    frames_size (f :: fs) = 9 + f.2.length + frames_size fs := by
  simp [frames_size]

/-- One iteration of the loop on a complete frame at the cursor, whatever its reserved
byte. -/
theorem process_messages_step_at (e : Endian) (buffer : List Byte) (fuel : Nat)
    (buffer_len offset : Int) (acc : List (Byte × List Byte)) (f : Byte × List Byte)
    (h0 : 0 ≤ offset) (hbl : buffer_len < 2147483648)
    (hf : frames_at buffer offset [f]) (hsz : f.2.length < MAX_MESSAGE_LEN)
    (hall : offset + 9 + (f.2.length : Int) ≤ buffer_len) :
    process_messages e buffer (fuel + 1) buffer_len offset acc =
      process_messages e buffer fuel buffer_len (offset + 9 + (f.2.length : Int))
        (acc ++ [(f.1, c_str f.2)]) := by
  obtain ⟨hm, hv, ht, hl, hp, _⟩ := hf
  have hc := unpack_message_complete e buffer buffer_len offset 0
    (List.replicate MAX_MESSAGE_LEN 0) MAX_MESSAGE_LEN h0 hbl hm hv (by rw [hl]; exact hsz)
    (by rw [hl]; exact hall)
  have hsplit : buffer.drop (offset.toNat + 9)
      = f.2 ++ (buffer.drop (offset.toNat + 9)).drop f.2.length := by
    conv_lhs => rw [← List.take_append_drop f.2.length (buffer.drop (offset.toNat + 9)), hp]
  have hd := memcpy_set_terminator (List.replicate MAX_MESSAGE_LEN 0) f.2
    ((buffer.drop (offset.toNat + 9)).drop f.2.length)
    (by rw [List.length_replicate]; exact hsz)
  rw [← hsplit] at hd
  rw [hl, ht, hd] at hc
  have hlt : offset < buffer_len := by
    clear hm hv ht hl hp hc hd hsplit
    omega
  conv_lhs => unfold process_messages
  rw [if_pos hlt, hc]
  simp only [↓reduceIte, c_str_append_nul_any]

/-- The loop walks the frames that lie back to back from the cursor on, dispatching each in
order. -/
theorem process_messages_frames_at (e : Endian) (buffer : List Byte)
    (fs : List (Byte × List Byte)) :
    ∀ (fuel : Nat) (buffer_len offset : Int) (acc : List (Byte × List Byte)),
      0 ≤ offset → buffer_len < 2147483648 → frames_at buffer offset fs →
      (∀ f ∈ fs, f.2.length < MAX_MESSAGE_LEN) →
      offset + (frames_size fs : Int) ≤ buffer_len →
      process_messages e buffer (fuel + fs.length) buffer_len offset acc =
        process_messages e buffer fuel buffer_len (offset + (frames_size fs : Int))
          (acc ++ fs.map (fun f => (f.1, c_str f.2))) := by
  induction fs with
  | nil =>
    intro fuel buffer_len offset acc _ _ _ _ _
    simp [frames_size]
  | cons f fs ih =>
    intro fuel buffer_len offset acc h0 hbl hfr hsz hle
    rw [frames_size_cons] at hle ⊢
    have hf : f.2.length < MAX_MESSAGE_LEN := hsz f (List.mem_cons_self _ _)
    have hsz2 : ∀ g ∈ fs, g.2.length < MAX_MESSAGE_LEN :=
      fun g hg => hsz g (List.mem_cons_of_mem _ hg)
    obtain ⟨hm, hv, ht, hl, hp, hrest⟩ := hfr
    have hone : frames_at buffer offset [f] := ⟨hm, hv, ht, hl, hp, trivial⟩
    have hall : offset + 9 + (f.2.length : Int) ≤ buffer_len := by
      clear hm hv ht hl hp hone hrest
      push_cast at hle
      omega
    have e1 : fuel + (f :: fs).length = (fuel + fs.length) + 1 := by
      simp only [List.length_cons]; omega
    rw [e1, process_messages_step_at e buffer (fuel + fs.length) buffer_len offset acc f h0 hbl
      hone hf hall,
      ih fuel buffer_len (offset + 9 + (f.2.length : Int)) (acc ++ [(f.1, c_str f.2)])
        (by clear hm hv ht hl hp hone hrest; omega) hbl hrest hsz2
        (by clear hm hv ht hl hp hone hrest; push_cast at hle; omega)]
    have e2 : offset + 9 + (f.2.length : Int) + (frames_size fs : Int)
        = offset + ((9 + f.2.length + frames_size fs : Nat) : Int) := by
      push_cast; ring
    rw [e2]
    simp only [List.map_cons, List.append_assoc, List.singleton_append]


/-- C9: for every type `t` and NUL-free payload `p` with `9 + |p| <= buffer_size` (sizes within
the range of the `int` result), `pack_message` returns `9 + |p|` and the destination holds
`CA FE 01 00 t`, the four bytes of `|p|` most significant first, then the payload, with every
byte from index `9 + |p|` on left as it was. -/
theorem pack_message_wire_layout (e : Endian) (t : Byte) (p buffer : List Byte)
    (buffer_size : Nat) (hp : (0 : Byte) ∉ p) (hfit : 9 + p.length ≤ buffer_size)
    (hdst : buffer_size ≤ buffer.length) (hint : buffer_size ≤ 2147483647) :
    (pack_message e t (c_lit p) buffer buffer_size).1 = 9 + (p.length : Int) ∧
    (pack_message e t (c_lit p) buffer buffer_size).2 =
      [0xCA, 0xFE, 0x01, 0x00, t, toByte (p.length / 16777216), toByte (p.length / 65536),
        toByte (p.length / 256), toByte p.length] ++ p ++ buffer.drop (9 + p.length) ∧
    (toByte (p.length / 16777216)).val * 16777216 + (toByte (p.length / 65536)).val * 65536
      + (toByte (p.length / 256)).val * 256 + (toByte p.length).val = p.length ∧
    (pack_message e t (c_lit p) buffer buffer_size).2.length = buffer.length := by
  rw [pack_message_eq e t p buffer buffer_size hp (by simp only [HEADER_SIZE]; omega) (by omega)]
  refine ⟨by simp, by simp [frame_bytes, frame_header], be32_value _ (by omega), ?_⟩
  simp only [frame_bytes, List.length_append, frame_header_length, List.length_drop]
  omega

theorem pack_message_wire_layout_witness :
    pack_message Endian.little 3 (c_lit [0x68, 0x69]) (List.replicate 12 0xFF) 12
      = (11, [0xCA, 0xFE, 0x01, 0x00, 3, 0, 0, 0, 2, 0x68, 0x69, 0xFF]) := by
  have h := pack_message_wire_layout Endian.little 3 [0x68, 0x69] (List.replicate 12 0xFF) 12
    (by decide) (by decide) (by decide) (by decide)
  exact Prod.ext h.1 (h.2.1.trans (by decide))

/-- C1 (amended): for every type byte and every NUL-free payload of at most 1023 bytes
(`MAX_MESSAGE_LEN - 1`, what the receiver's payload buffer holds besides the terminator),
`unpack_message` at offset 0 on exactly the bytes written by `pack_message`, with
`data_size = 1024`, returns 1 with the same type, the payload followed by a NUL in `data`,
and the offset advanced by `9 + |p|`. -/
theorem pack_unpack_roundtrip (e : Endian) (t : Byte) (p dst : List Byte) (msg_type : Byte)
    (data : List Byte) (hp : (0 : Byte) ∉ p) (hlen : p.length < MAX_MESSAGE_LEN)
    (hdata : data.length = MAX_MESSAGE_LEN) :
    (pack_message e t (c_lit p) dst MAX_BUFFER_LEN).1 = 9 + (p.length : Int) ∧
    unpack_message e
        ((pack_message e t (c_lit p) dst MAX_BUFFER_LEN).2.take
          (pack_message e t (c_lit p) dst MAX_BUFFER_LEN).1.toNat)
        (pack_message e t (c_lit p) dst MAX_BUFFER_LEN).1 0 msg_type data MAX_MESSAGE_LEN
      = ⟨1, 9 + (p.length : Int), t, p ++ 0 :: data.drop (p.length + 1)⟩ ∧
    c_str (p ++ 0 :: data.drop (p.length + 1)) = p := by
  have hfit : 9 + p.length ≤ MAX_BUFFER_LEN := by
    simp only [MAX_MESSAGE_LEN, MAX_BUFFER_LEN] at *; omega
  refine ⟨?_, ?_, c_str_append_nul p _ hp⟩
  · rw [pack_message_eq e t p dst MAX_BUFFER_LEN hp
      (by simp only [HEADER_SIZE, MAX_BUFFER_LEN] at *; omega) (by simp only [MAX_BUFFER_LEN]; omega)]
    simp
  · rw [unpack_pack_message e t p dst msg_type data MAX_MESSAGE_LEN hp hfit,
      if_neg (by omega)]
    have := memcpy_set_terminator data p [] (by omega)
    rw [List.append_nil] at this
    rw [this]

theorem pack_unpack_roundtrip_witness :
    unpack_message Endian.big
        ((pack_message Endian.big 3 (c_lit [0x68, 0x69]) (List.replicate 4096 0) 4096).2.take
          (pack_message Endian.big 3 (c_lit [0x68, 0x69]) (List.replicate 4096 0) 4096).1.toNat)
        (pack_message Endian.big 3 (c_lit [0x68, 0x69]) (List.replicate 4096 0) 4096).1 0 0
        (List.replicate 1024 0xFF) 1024
      = ⟨1, 11, 3, [0x68, 0x69, 0] ++ List.replicate 1021 0xFF⟩ := by
  have h := pack_unpack_roundtrip Endian.big 3 [0x68, 0x69] (List.replicate 4096 0) 0
    (List.replicate 1024 0xFF) (by decide) (by decide) (List.length_replicate _ _)
  have h2 := h.2.1
  simp only [MAX_BUFFER_LEN, MAX_MESSAGE_LEN] at h2
  rw [h2]
  simp only [List.drop_replicate, List.length_cons, List.length_nil]
  rfl

/-- C1 as stated fails: a CHAT_MESSAGE frame with a NUL-free payload of 1024 bytes fits the
4096-byte buffer of `send_message`, yet `unpack_message` with `data_size = 1024` answers -1
on the bytes `pack_message` wrote. -/
theorem roundtrip_counterexample :
    (0 : Byte) ∉ List.replicate 1024 (0x61 : Byte) ∧
    9 + (List.replicate 1024 (0x61 : Byte)).length ≤ 4096 ∧
    (unpack_message Endian.little
        ((pack_message Endian.little 3 (c_lit (List.replicate 1024 0x61))
          (List.replicate 4096 0) 4096).2.take
          (pack_message Endian.little 3 (c_lit (List.replicate 1024 0x61))
            (List.replicate 4096 0) 4096).1.toNat)
        (pack_message Endian.little 3 (c_lit (List.replicate 1024 0x61))
          (List.replicate 4096 0) 4096).1 0 0 (List.replicate 1024 0) 1024).ret = -1 := by
  have hp : (0 : Byte) ∉ List.replicate 1024 (0x61 : Byte) := by
    intro h
    have := List.eq_of_mem_replicate h
    exact absurd this (by decide)
  have hl : (List.replicate 1024 (0x61 : Byte)).length = 1024 := List.length_replicate _ _
  refine ⟨hp, by rw [hl]; decide, ?_⟩
  have h := unpack_pack_message Endian.little 3 (List.replicate 1024 0x61)
    (List.replicate 4096 0) 0 (List.replicate 1024 0) 1024 hp
    (by rw [hl]; decide)
  simp only [MAX_BUFFER_LEN] at h
  rw [h, if_pos (by rw [hl])]


/-- C2: from an empty receive buffer, for every frame `pack_message` can produce through
`send_message` (NUL-free payload, `9 + |p| <= 4096`) and every cut of its bytes into two or
more non-empty consecutive chunks, feeding the chunks one per pass gives the same calls of
`handle_received_message` and the same final buffer state as feeding the whole frame in one
pass; both runs return. -/
theorem split_delivery_invariance (e : Endian) (fuel : Nat) (st : RecvState) (t : Byte)
    (p : List Byte) (chunks : List (List Byte)) (hempty : st.buffer_len = 0)
    (hp : (0 : Byte) ∉ p) (hfit : 9 + p.length ≤ MAX_BUFFER_LEN)
    (hne : ∀ c ∈ chunks, c ≠ []) (h2 : 2 ≤ chunks.length)
    (hcut : chunks.flatten = frame_bytes t p) (hfuel : 2 ≤ fuel) :
    receive_messages_thread e fuel st chunks
      = receive_messages_thread e fuel st [frame_bytes t p] ∧
    receive_messages_thread e fuel st [frame_bytes t p] =
      some (⟨frame_bytes t p ++ st.receive_buffer.drop (9 + p.length), 0⟩,
        if p.length < MAX_MESSAGE_LEN then [(t, p)] else []) := by
  obtain ⟨k, rfl⟩ : ∃ k, fuel = k + 2 := ⟨fuel - 2, by omega⟩
  simp only [MAX_BUFFER_LEN] at hfit
  have hst : st = ⟨[] ++ st.receive_buffer, (([] : List Byte).length : Int)⟩ := by
    cases st
    simp only at hempty
    simp [hempty]
  have hchunks : chunks ≠ [] := by
    intro h; rw [h] at h2; simp at h2
  have h1 := thread_delivers_frame e k t p (by omega) chunks [] st.receive_buffer hchunks hne
    (by simpa using hcut)
  have h3 := thread_delivers_frame e k t p (by omega) [frame_bytes t p] [] st.receive_buffer
    (by simp) (by
      intro c hc
      simp only [List.mem_singleton] at hc
      subst hc
      intro h
      have := frame_bytes_length t p
      rw [h] at this
      simp only [List.length_nil] at this
      omega) (by simp)
  rw [← hst] at h1 h3
  rw [hcut] at h1
  simp only [List.flatten_cons, List.flatten_nil, List.append_nil] at h3
  rw [frame_bytes_length, c_str_nul_free p hp] at h1 h3
  exact ⟨h1.trans h3.symm, h3⟩

/-- C3 (amended): from an empty receive buffer, one pass over the concatenation of N >= 0
frames with NUL-free payloads of at most 1023 bytes each (what `msg_data` can hold), the whole
fitting one delivery of 4096 bytes, calls `handle_received_message` exactly N times with the
frames' (type, payload) pairs in their order and leaves `buffer_len = 0`. -/
theorem coalesced_frames_dispatched (e : Endian) (fuel : Nat) (st : RecvState)
    (fs : List (Byte × List Byte)) (hempty : st.buffer_len = 0)
    (hvalid : ∀ f ∈ fs, (0 : Byte) ∉ f.2 ∧ f.2.length < MAX_MESSAGE_LEN)
    (hfit : (encode_frames fs).length ≤ MAX_BUFFER_LEN) (hfuel : fs.length < fuel) :
    receive_pass e fuel st (encode_frames fs) =
      some ⟨encode_frames fs ++ st.receive_buffer.drop (encode_frames fs).length, 0, fs,
        false, false⟩ := by
  obtain ⟨k, rfl⟩ : ∃ k, fuel = (k + 1) + fs.length := ⟨fuel - fs.length - 1, by omega⟩
  simp only [MAX_BUFFER_LEN] at hfit
  have h := receive_pass_frames e (k + 1) st (encode_frames fs) fs [] (by omega)
    (by rw [hempty]; omega) (by simp [hempty]) (fun f hf => (hvalid f hf).2)
    (by simp [hempty])
  rw [h, hempty]
  simp only [List.append_nil, Int.toNat_zero, Nat.zero_add, zero_add]
  rw [process_messages_at_end e _ k _ _ _ (le_refl _),
    map_c_str_nul_free fs (fun f hf => (hvalid f hf).1)]
  simp only [Option.map_some']
  rw [compact_consumed _ _ _ (by omega)]

theorem coalesced_frames_dispatched_witness :
    receive_pass Endian.little 3 ⟨List.replicate 8192 0, 0⟩
        (encode_frames [(3, [0x68, 0x69]), (7, [])]) =
      some ⟨encode_frames [(3, [0x68, 0x69]), (7, [])]
          ++ (List.replicate 8192 0).drop (encode_frames [(3, [0x68, 0x69]), (7, [])]).length,
        0, [(3, [0x68, 0x69]), (7, [])], false, false⟩ :=
  coalesced_frames_dispatched Endian.little 3 ⟨List.replicate 8192 0, 0⟩
    [(3, [0x68, 0x69]), (7, [])] rfl (by decide) (by decide) (by decide)


theorem split_delivery_invariance_witness :
    receive_messages_thread Endian.little 2 ⟨List.replicate 8192 0, 0⟩
        [[0xCA, 0xFE, 0x01], [0x00, 3, 0, 0, 0, 2, 0x68], [0x69]]
      = some (⟨frame_bytes 3 [0x68, 0x69] ++ (List.replicate 8192 0).drop 11, 0⟩,
          [(3, [0x68, 0x69])]) := by
  have h := split_delivery_invariance Endian.little 2 ⟨List.replicate 8192 0, 0⟩ 3 [0x68, 0x69]
    [[0xCA, 0xFE, 0x01], [0x00, 3, 0, 0, 0, 2, 0x68], [0x69]] rfl (by decide) (by decide)
    (by decide) (by decide) (by decide) (by decide)
  exact h.1.trans h.2

/-- C3 as stated fails: one CHAT_MESSAGE frame with a NUL-free payload of 1024 bytes is a frame
`pack_message` produces and fits one delivery, yet the pass over it makes no call of
`handle_received_message` (N = 1 frame, 0 dispatched). -/
theorem coalescing_counterexample :
    (0 : Byte) ∉ List.replicate 1024 (0x61 : Byte) ∧
    (encode_frames [(3, List.replicate 1024 0x61)]).length ≤ 4096 ∧
    (receive_pass Endian.little 8192 ⟨List.replicate 8192 0, 0⟩
        (encode_frames [(3, List.replicate 1024 0x61)])).map (fun r => r.dispatched)
      = some [] := by
  have hp : (0 : Byte) ∉ List.replicate 1024 (0x61 : Byte) := by
    intro h
    exact absurd (List.eq_of_mem_replicate h) (by decide)
  have hl : (List.replicate 1024 (0x61 : Byte)).length = 1024 := List.length_replicate _ _
  have hel : (encode_frames [(3, List.replicate 1024 0x61)]).length = 1033 := by
    simp only [encode_frames, List.append_nil, frame_bytes_length, hl]
  refine ⟨hp, by rw [hel]; decide, ?_⟩
  have h := receive_pass_completes Endian.little 8190 [] (List.replicate 8192 0)
    (frame_bytes 3 (List.replicate 1024 0x61)) (List.replicate 1024 0x61) 3 rfl
    (by rw [hl]; decide)
  simp only [List.nil_append, List.length_nil, Nat.cast_zero, hl] at h
  simp only [encode_frames, List.append_nil]
  rw [h]
  simp only [Option.map_some', MAX_MESSAGE_LEN]
  rfl

/-- C6 (amended): for every buffer state with `0 <= buffer_len < 8192` and every delivery of
`n <= 4096` bytes the pass returns, and it reports overflow exactly when `buffer_len + n`
reaches or exceeds 8192 (`buffer_len + n >= sizeof(receive_buffer)`, so the buffer never holds
more than 8191 bytes); in that case nothing is dispatched and `buffer_len = 0`; otherwise the
loop runs on the buffer in which the `n` bytes follow the `buffer_len` old ones, with length
`buffer_len + n`. -/
theorem overflow_iff_reaches_capacity (e : Endian) (fuel : Nat) (st : RecvState)
    (c : List Byte) (h0 : 0 ≤ st.buffer_len) (hlen : st.buffer_len < RECEIVE_BUFFER_SIZE)
    (hc : c.length ≤ MAX_BUFFER_LEN) (hfuel : RECEIVE_BUFFER_SIZE ≤ fuel) :
    ∃ r, receive_pass e fuel st c = some r ∧
      (r.overflow = true ↔ (RECEIVE_BUFFER_SIZE : Int) ≤ st.buffer_len + c.length) ∧
      (r.overflow = true →
        r.dispatched = [] ∧ r.buffer_len = 0 ∧ r.receive_buffer = st.receive_buffer) ∧
      (r.overflow = false →
        some r = (process_messages e
          (st.receive_buffer.take st.buffer_len.toNat ++ c
            ++ st.receive_buffer.drop (st.buffer_len.toNat + c.length))
          fuel (st.buffer_len + c.length) 0 []).map
          (compact (st.receive_buffer.take st.buffer_len.toNat ++ c
            ++ st.receive_buffer.drop (st.buffer_len.toNat + c.length)))) := by
  simp only [RECEIVE_BUFFER_SIZE, MAX_BUFFER_LEN] at *
  by_cases hov : (8192 : Int) ≤ st.buffer_len + c.length
  · refine ⟨_, receive_pass_overflow e fuel st c hov (by omega), ?_, ?_, ?_⟩
    · simp only [true_iff]
      norm_num
      exact hov
    · intro _; exact ⟨rfl, rfl, rfl⟩
    · intro h; simp at h
  · have happ := receive_pass_append e fuel st c h0 (by omega)
    obtain ⟨l, hl⟩ := process_messages_returns e
      (st.receive_buffer.take st.buffer_len.toNat ++ c
        ++ st.receive_buffer.drop (st.buffer_len.toNat + c.length))
      fuel (st.buffer_len + c.length) 0 [] (le_refl _) (by omega) (by omega)
    rw [hl] at happ
    simp only [Option.map_some'] at happ
    refine ⟨_, happ, ?_, ?_, ?_⟩
    · rw [compact_overflow_false]
      constructor
      · intro h; simp at h
      · intro h; exact absurd (by norm_num at h; exact h) hov
    · intro h; rw [compact_overflow_false] at h; simp at h
    · intro _
      rw [hl]
      rfl

theorem overflow_iff_reaches_capacity_witness :
    ∃ r, receive_pass Endian.little 8192 ⟨List.replicate 8192 0, 8190⟩ [1, 2] = some r ∧
      r.overflow = true ∧ r.dispatched = [] ∧ r.buffer_len = 0 := by
  obtain ⟨r, hr, hiff, hov, _⟩ := overflow_iff_reaches_capacity Endian.little 8192
    ⟨List.replicate 8192 0, 8190⟩ [1, 2] (by decide) (by decide) (by decide) (by decide)
  have h : r.overflow = true := hiff.mpr (by decide)
  exact ⟨r, hr, h, (hov h).1, (hov h).2.1⟩

/-- C6 as stated fails: with 4096 bytes retained (the header of a frame that declares 8000
payload bytes and the first 4087 of these) a delivery of 4096 bytes makes
`buffer_len + n = 8192`, which does not exceed the capacity of 8192, yet the pass takes the
overflow branch and clears the buffer. -/
theorem overflow_counterexample :
    ¬ ((4096 : Int) + ((List.replicate 4096 (0x61 : Byte)).length : Int) > 8192) ∧
    receive_pass Endian.little 8192
        ⟨frame_header 3 8000 ++ List.replicate 8183 0x61, 4096⟩ (List.replicate 4096 0x61)
      = some ⟨frame_header 3 8000 ++ List.replicate 8183 0x61, 0, [], true, false⟩ := by
  have hl : (List.replicate 4096 (0x61 : Byte)).length = 4096 := List.length_replicate _ _
  refine ⟨by rw [hl]; decide, ?_⟩
  exact receive_pass_overflow Endian.little 8192 _ _ (by simp only [hl]; decide)
    (by simp only [hl]; decide)


/-- C5 (amended): with at least 9 bytes available from the offset, `unpack_message` returns -1
and leaves the offset and the outputs unchanged whenever the magic is not 0xCAFE or the version
is not 0x01, however many payload bytes have arrived, and also whenever the declared length is
at least `data_size` and the `9 + length` bytes it announces are all available; the reserved
byte never influences the result. -/
theorem unpack_rejects_bad_header (e : Endian) (buffer : List Byte) (buffer_len offset : Int)
    (msg_type : Byte) (data : List Byte) (data_size : Nat) (h0 : 0 ≤ offset)
    (h9 : offset + 9 ≤ buffer_len) (hbl : buffer_len < 2147483648) :
    ((wire_magic buffer offset ≠ MAGIC ∨ wire_version buffer offset ≠ VERSION) →
      unpack_message e buffer buffer_len offset msg_type data data_size
        = ⟨-1, offset, msg_type, data⟩) ∧
    (data_size ≤ wire_length buffer offset →
      offset + 9 + (wire_length buffer offset : Int) ≤ buffer_len →
      unpack_message e buffer buffer_len offset msg_type data data_size
        = ⟨-1, offset, msg_type, data⟩) ∧
    (∀ b : Byte,
      unpack_message e (buffer.set (offset.toNat + 3) b) buffer_len offset msg_type data
          data_size
        = unpack_message e buffer buffer_len offset msg_type data data_size) := by
  have w0 : wrapInt32 (buffer_len - offset) = buffer_len - offset :=
    wrapInt32_of_range _ (by omega) (by omega)
  have h9' : ¬ (buffer_len - offset < 9) := by omega
  refine ⟨?_, ?_, fun b => unpack_message_reserved e buffer buffer_len offset msg_type data
    data_size b h0⟩
  · intro hbad
    rw [unpack_message_eq, w0, if_neg h9']
    rcases hbad with hm | hv
    · rw [if_pos hm]
    · by_cases hm : wire_magic buffer offset ≠ MAGIC
      · rw [if_pos hm]
      · rw [if_neg hm, if_pos hv]
  · intro hbig hall
    rw [unpack_message_eq, w0, if_neg h9']
    generalize wire_length buffer offset = L at hbig hall ⊢
    generalize wire_magic buffer offset = M
    generalize wire_version buffer offset = V
    have w1 : wrapInt32 (L : Int) = L := wrapInt32_of_range _ (by omega) (by omega)
    have w2 : wrapInt32 (9 + (L : Int)) = 9 + L := wrapInt32_of_range _ (by omega) (by omega)
    rw [w1, w2, if_neg (show ¬ (buffer_len - offset < 9 + (L : Int)) by omega), if_pos hbig]
    split_ifs <;> rfl

theorem unpack_rejects_bad_header_witness :
    unpack_message Endian.little [0xCA, 0xFF, 1, 0, 3, 0, 0, 0, 0] 9 0 7 [0x55, 0x55] 2
      = ⟨-1, 0, 7, [0x55, 0x55]⟩ :=
  (unpack_rejects_bad_header Endian.little [0xCA, 0xFF, 1, 0, 3, 0, 0, 0, 0] 9 0 7 [0x55, 0x55] 2
    (by decide) (by decide) (by decide)).1 (Or.inl (by decide))

/-- C5 as stated fails: nine bytes are available, magic and version are right and the header
declares 2000 payload bytes, more than the caller's 1024-byte buffer holds; none of them has
arrived, and `unpack_message` answers 0 (Incomplete), not -1. -/
theorem bad_header_counterexample :
    (0 : Int) + 9 ≤ 9 ∧
    wire_length [0xCA, 0xFE, 1, 0, 3, 0, 0, 0x07, 0xD0] 0 = 2000 ∧
    2000 ≥ 1024 ∧
    (unpack_message Endian.little [0xCA, 0xFE, 1, 0, 3, 0, 0, 0x07, 0xD0] 9 0 0
      (List.replicate 1024 0) 1024).ret = 0 := by
  refine ⟨by decide, by decide, by decide, ?_⟩
  have h := unpack_at_header Endian.little [] [] 3 2000 9 0 (List.replicate 1024 0) 1024
    (by decide) (by decide) (by decide)
  simp only [List.nil_append, List.append_nil, List.length_nil, Nat.cast_zero] at h
  have hb : frame_header 3 2000 = [0xCA, 0xFE, 1, 0, 3, 0, 0, 0x07, 0xD0] := by decide
  rw [hb] at h
  rw [h, if_pos (by decide)]


/-- C10: `unpack_message` returns 0 and leaves the offset, `msg_type` and `data` as they were
when fewer than 9 bytes are available from the offset, and when the header there has the right
magic and version and declares a length `L < data_size` of which fewer than `9 + L` bytes are
available (`data_size` within the range of `int`); a later call from the same offset on the
same bytes extended by `ext` returns 1 once a frame the caller can hold is complete there, and
in the second case that is as soon as `9 + L` bytes are available. -/
theorem unpack_incomplete_keeps_state (e : Endian) (buffer : List Byte)
    (buffer_len offset : Int) (msg_type : Byte) (data : List Byte) (data_size : Nat)
    (h0 : 0 ≤ offset) (hoff : offset ≤ buffer_len) (hlen : buffer_len ≤ buffer.length)
    (hbl : buffer_len < 2147483648) (hds : (data_size : Int) + 9 ≤ 2147483648) :
    (buffer_len - offset < 9 →
      unpack_message e buffer buffer_len offset msg_type data data_size
        = ⟨0, offset, msg_type, data⟩) ∧
    (9 ≤ buffer_len - offset → wire_magic buffer offset = MAGIC →
      wire_version buffer offset = VERSION → wire_length buffer offset < data_size →
      buffer_len - offset < 9 + (wire_length buffer offset : Int) →
      unpack_message e buffer buffer_len offset msg_type data data_size
          = ⟨0, offset, msg_type, data⟩ ∧
        ∀ ext : List Byte, offset + 9 + (wire_length buffer offset : Int)
            ≤ buffer_len + ext.length →
          buffer_len + ext.length < 2147483648 →
          (unpack_message e (buffer.take buffer_len.toNat ++ ext) (buffer_len + ext.length)
            offset msg_type data data_size).ret = 1) ∧
    (∀ ext : List Byte, buffer_len + ext.length < 2147483648 →
      wire_magic (buffer.take buffer_len.toNat ++ ext) offset = MAGIC →
      wire_version (buffer.take buffer_len.toNat ++ ext) offset = VERSION →
      wire_length (buffer.take buffer_len.toNat ++ ext) offset < data_size →
      offset + 9 + (wire_length (buffer.take buffer_len.toNat ++ ext) offset : Int)
        ≤ buffer_len + ext.length →
      (unpack_message e (buffer.take buffer_len.toNat ++ ext) (buffer_len + ext.length)
        offset msg_type data data_size).ret = 1) := by
  have w0 : wrapInt32 (buffer_len - offset) = buffer_len - offset :=
    wrapInt32_of_range _ (by omega) (by omega)
  refine ⟨?_, ?_, ?_⟩
  · intro h
    rw [unpack_message_eq, w0, if_pos h]
  · intro h9 hm hv hl hinc
    have hinc' : buffer_len - offset < 9 + (wire_length buffer offset : Int) := hinc
    constructor
    · rw [unpack_message_eq, w0, if_neg (show ¬ (buffer_len - offset < 9) by omega),
        if_neg (show ¬ (wire_magic buffer offset ≠ MAGIC) by rw [hm]; simp),
        if_neg (show ¬ (wire_version buffer offset ≠ VERSION) by rw [hv]; simp)]
      clear hm hv
      generalize wire_length buffer offset = L at hl hinc ⊢
      have w1 : wrapInt32 (L : Int) = L := wrapInt32_of_range _ (by omega) (by omega)
      have w2 : wrapInt32 (9 + (L : Int)) = 9 + L :=
        wrapInt32_of_range _ (by omega) (by omega)
      rw [w1, w2, if_pos hinc]
    · intro ext hall hbl2
      obtain ⟨em, ev, _, el⟩ := wire_header_take_append buffer ext buffer_len.toNat
        offset h0 (by omega) (by omega)
      rw [unpack_message_complete e _ _ offset msg_type data data_size h0 hbl2 (by rw [em, hm])
        (by rw [ev, hv]) (by rw [el]; exact hl) (by rw [el]; exact hall)]
  · intro ext hbl2 hm hv hl hall
    rw [unpack_message_complete e _ _ offset msg_type data data_size h0 hbl2 hm hv hl hall]


theorem unpack_incomplete_keeps_state_witness :
    unpack_message Endian.big [0xCA, 0xFE, 1, 0, 3, 0, 0, 0, 2, 0x68] 10 0 7
        [0xFF, 0xFF, 0xFF, 0xFF] 4 = ⟨0, 0, 7, [0xFF, 0xFF, 0xFF, 0xFF]⟩ ∧
    (unpack_message Endian.big
        (([0xCA, 0xFE, 1, 0, 3, 0, 0, 0, 2, 0x68] : List Byte).take (10 : Int).toNat ++ [0x69])
        (10 + (([0x69] : List Byte).length : Int)) 0 7 [0xFF, 0xFF, 0xFF, 0xFF] 4).ret = 1 := by
  have h := (unpack_incomplete_keeps_state Endian.big [0xCA, 0xFE, 1, 0, 3, 0, 0, 0, 2, 0x68]
    10 0 7 [0xFF, 0xFF, 0xFF, 0xFF] 4 (by decide) (by decide) (by decide) (by decide)
    (by decide)).2.1 (by decide) (by decide) (by decide) (by decide) (by decide)
  exact ⟨h.1, h.2 [0x69] (by decide) (by decide)⟩


/-- C8: in the step model of `login_to_server` (clock in ticks of 100 ms, `time(NULL)` its
whole seconds), if `logged_in` never becomes true and the transport takes every write, the
function sends exactly 3 LOGIN_REQUEST frames with the nickname as payload, leaves each wait
through the timeout when `time(NULL)` reads 5 seconds more than at the send, and returns 0;
`connect_to_server`, once connected and with the receive thread started, then returns 0 after
`disconnect_client`, with `running = 0`, `logged_in = 0` and `socket_fd = -1`. -/
theorem login_retry_bound (e : Endian) (env : ConnectEnv) (fuel : Nat) (c : Client)
    (hnick : (0 : Byte) ∉ c.nickname) (hlen : c.nickname.length ≤ 50)
    (hnever : ∀ t, env.login.logged_in t = 0) (hacc : ∀ k, env.login.accepts k = true)
    (hsock : 0 ≤ env.socket_ret) (hpton : 0 < env.inet_pton_ret) (hconn : 0 ≤ env.connect_ret)
    (hthr : env.pthread_create_ret = 0) (hfuel : 54 ≤ fuel) :
    login_to_server e env.login c.nickname fuel env.clock =
      some (0, ⟨3, (env.clock / 10 + 15) * 10, 3,
        [LoginEvent.sent env.clock (frame_bytes LOGIN_REQUEST c.nickname),
          LoginEvent.timeout ((env.clock / 10 + 5) * 10),
          LoginEvent.sent ((env.clock / 10 + 5) * 10) (frame_bytes LOGIN_REQUEST c.nickname),
          LoginEvent.timeout ((env.clock / 10 + 10) * 10),
          LoginEvent.sent ((env.clock / 10 + 10) * 10) (frame_bytes LOGIN_REQUEST c.nickname),
          LoginEvent.timeout ((env.clock / 10 + 15) * 10)]⟩) ∧
    connect_to_server e env fuel c =
      some (0, { c with socket_fd := -1, running := 0, logged_in := 0 },
        [LoginEvent.sent env.clock (frame_bytes LOGIN_REQUEST c.nickname),
          LoginEvent.timeout ((env.clock / 10 + 5) * 10),
          LoginEvent.sent ((env.clock / 10 + 5) * 10) (frame_bytes LOGIN_REQUEST c.nickname),
          LoginEvent.timeout ((env.clock / 10 + 10) * 10),
          LoginEvent.sent ((env.clock / 10 + 10) * 10) (frame_bytes LOGIN_REQUEST c.nickname),
          LoginEvent.timeout ((env.clock / 10 + 15) * 10)]) := by
  obtain ⟨k, rfl⟩ : ∃ k, fuel = k + 4 := ⟨fuel - 4, by omega⟩
  have h1 : (env.clock / 10 + 5) * 10 / 10 + 5 = env.clock / 10 + 10 := by omega
  have h2 : (env.clock / 10 + 10) * 10 / 10 + 5 = env.clock / 10 + 15 := by omega
  have hlogin : login_to_server e env.login c.nickname (k + 4) env.clock =
      some (0, ⟨3, (env.clock / 10 + 15) * 10, 3,
        [LoginEvent.sent env.clock (frame_bytes LOGIN_REQUEST c.nickname),
          LoginEvent.timeout ((env.clock / 10 + 5) * 10),
          LoginEvent.sent ((env.clock / 10 + 5) * 10) (frame_bytes LOGIN_REQUEST c.nickname),
          LoginEvent.timeout ((env.clock / 10 + 10) * 10),
          LoginEvent.sent ((env.clock / 10 + 10) * 10) (frame_bytes LOGIN_REQUEST c.nickname),
          LoginEvent.timeout ((env.clock / 10 + 15) * 10)]⟩) := by
    have s1 := login_loop_timeout_step e env.login c.nickname hnick hlen hnever hacc (k + 3)
      ⟨0, env.clock, 0, []⟩ (by norm_num) (by omega)
    have s2 := login_loop_timeout_step e env.login c.nickname hnick hlen hnever hacc (k + 2)
      ⟨1, (env.clock / 10 + 5) * 10, 1,
        [LoginEvent.sent env.clock (frame_bytes LOGIN_REQUEST c.nickname),
          LoginEvent.timeout ((env.clock / 10 + 5) * 10)]⟩ (by norm_num) (by omega)
    have s3 := login_loop_timeout_step e env.login c.nickname hnick hlen hnever hacc (k + 1)
      ⟨2, (env.clock / 10 + 10) * 10, 2,
        [LoginEvent.sent env.clock (frame_bytes LOGIN_REQUEST c.nickname),
          LoginEvent.timeout ((env.clock / 10 + 5) * 10),
          LoginEvent.sent ((env.clock / 10 + 5) * 10) (frame_bytes LOGIN_REQUEST c.nickname),
          LoginEvent.timeout ((env.clock / 10 + 10) * 10)]⟩ (by norm_num) (by omega)
    simp only [List.nil_append, zero_add, h1, List.cons_append, h2, Int.reduceAdd,
      Nat.reduceAdd] at s1 s2 s3
    unfold login_to_server
    rw [s1, s2, s3]
    unfold login_loop
    rw [if_neg (by norm_num)]
  refine ⟨hlogin, ?_⟩
  unfold connect_to_server
  simp only [hlogin]
  rw [if_neg (by omega), if_neg (by omega), if_neg (by omega), if_neg (by simp [hthr])]
  simp only [hnever, disconnect_client]
  have hs : ¬ (env.socket_ret < 0) := by omega
  simp [hs]

theorem login_retry_bound_witness :
    connect_to_server Endian.little
        ⟨3, 1, 0, 0, 7, ⟨fun _ => 0, fun _ => true⟩, fun c => c⟩ 54
        ⟨-1, ascii "bob", 0, 0, List.replicate 100 [], 0, ⟨List.replicate 8192 0, 0⟩⟩ =
      some (0, ⟨-1, ascii "bob", 0, 0, List.replicate 100 [], 0, ⟨List.replicate 8192 0, 0⟩⟩,
        [LoginEvent.sent 7 (frame_bytes LOGIN_REQUEST (ascii "bob")),
          LoginEvent.timeout 50,
          LoginEvent.sent 50 (frame_bytes LOGIN_REQUEST (ascii "bob")),
          LoginEvent.timeout 100,
          LoginEvent.sent 100 (frame_bytes LOGIN_REQUEST (ascii "bob")),
          LoginEvent.timeout 150]) :=
  (login_retry_bound Endian.little
    ⟨3, 1, 0, 0, 7, ⟨fun _ => 0, fun _ => true⟩, fun c => c⟩ 54
    ⟨-1, ascii "bob", 0, 0, List.replicate 100 [], 0, ⟨List.replicate 8192 0, 0⟩⟩
    (by decide) (by decide) (fun _ => rfl) (fun _ => rfl) (by decide) (by decide) (by decide)
    rfl (by decide)).2


set_option maxRecDepth 100000 in
/-- C4 (the code at the failing input): on the payload `{"users":"alice,bob","count":2}`
`parse_simple_json` cuts the text at every comma before it looks for the colon, so the value
of `users` is `alice`; `handle_user_list` then stores one name, and the second entry of the
prior roster (`carol`, `dave`) stays in the array behind `user_count = 1`. -/
theorem user_list_cut_at_first_comma :
    get_json_value (parse_simple_json (ascii "\x7b\"users\":\"alice,bob\",\"count\":2\x7d"))
        (ascii "users") = some (ascii "alice") ∧
    (handle_user_list ⟨atof_digits, 0⟩
        ⟨3, ascii "me", 1, 1, [ascii "carol", ascii "dave"] ++ List.replicate 98 [], 2,
          ⟨List.replicate 8192 0, 0⟩⟩
        (ascii "\x7b\"users\":\"alice,bob\",\"count\":2\x7d")).1.user_count = 1 ∧
    (handle_user_list ⟨atof_digits, 0⟩
        ⟨3, ascii "me", 1, 1, [ascii "carol", ascii "dave"] ++ List.replicate 98 [], 2,
          ⟨List.replicate 8192 0, 0⟩⟩
        (ascii "\x7b\"users\":\"alice,bob\",\"count\":2\x7d")).1.users.take 2
      = [ascii "alice", ascii "dave"] := by
  refine ⟨by decide, by decide, by decide⟩


/-- C7: in every pass in which the cursor, after walking the complete frames `fs` that lie
at the front of the buffer after the append (their reserved bytes are free), stands at a
position with at least 9 bytes available whose header has a wrong magic or a version other
than 1, the frames `fs` are dispatched in order, nothing behind that position is dispatched,
and the pass ends with `buffer_len = 0`. -/
theorem invalid_header_discards_buffer (e : Endian) (fuel : Nat) (st : RecvState)
    (c : List Byte) (fs : List (Byte × List Byte))
    (h0 : 0 ≤ st.buffer_len) (hwf : st.buffer_len ≤ st.receive_buffer.length)
    (hroom : st.buffer_len + c.length < RECEIVE_BUFFER_SIZE)
    (hfr : frames_at (memcpy st.receive_buffer st.buffer_len.toNat c c.length) 0 fs)
    (hfs : ∀ f ∈ fs, f.2.length < MAX_MESSAGE_LEN)
    (h9 : (frames_size fs : Int) + 9 ≤ st.buffer_len + c.length)
    (hbad : wire_magic (memcpy st.receive_buffer st.buffer_len.toNat c c.length)
        (frames_size fs) ≠ MAGIC ∨
      wire_version (memcpy st.receive_buffer st.buffer_len.toNat c c.length)
        (frames_size fs) ≠ VERSION)
    (hfuel : fs.length < fuel) :
    receive_pass e fuel st c =
      some ⟨memcpy st.receive_buffer st.buffer_len.toNat c c.length, 0,
        fs.map (fun f => (f.1, c_str f.2)), false, true⟩ := by
  have _hw := hwf
  have _hz := h0
  obtain ⟨k, rfl⟩ : ∃ k, fuel = (k + 1) + fs.length := ⟨fuel - fs.length - 1, by omega⟩
  simp only [RECEIVE_BUFFER_SIZE, MAX_BUFFER_LEN] at hroom
  have hlen1 : st.buffer_len + (c.length : Int) < 2147483648 := by
    clear hbad hfr
    omega
  have hwrap : wrapInt32 (st.buffer_len + (c.length : Int)) = st.buffer_len + c.length :=
    wrapInt32_of_range _ (by clear hbad hfr; omega) hlen1
  have hwalk := process_messages_frames_at e
    (memcpy st.receive_buffer st.buffer_len.toNat c c.length) fs (k + 1)
    (st.buffer_len + c.length) 0 [] (le_refl _) hlen1 hfr hfs
    (by clear hbad hfr; omega)
  have hinv := process_messages_invalid e
    (memcpy st.receive_buffer st.buffer_len.toNat c c.length) k (st.buffer_len + c.length)
    (0 + (frames_size fs : Int)) (([] : List (Byte × List Byte))
      ++ fs.map (fun f => (f.1, c_str f.2)))
    (by clear hbad hfr; omega) (by clear hbad hfr; omega) hlen1
    (by rw [zero_add]; exact hbad)
  unfold receive_pass
  simp only [hwrap, RECEIVE_BUFFER_SIZE, MAX_BUFFER_LEN, Int.toNat_ofNat]
  rw [if_pos (by clear hbad hfr hwalk hinv; omega), hwalk, hinv]
  simp [compact]

set_option maxRecDepth 100000 in
theorem invalid_header_discards_buffer_witness :
    receive_pass Endian.little 2 ⟨List.replicate 8192 0, 0⟩
        ([0xCA, 0xFE, 1, 1, 3, 0, 0, 0, 1, 0x68] ++ [0xCA, 0xFF, 1, 0, 3, 0, 0, 0, 0]
          ++ frame_bytes 7 []) =
      some ⟨memcpy (List.replicate 8192 0) (0 : Int).toNat
          ([0xCA, 0xFE, 1, 1, 3, 0, 0, 0, 1, 0x68] ++ [0xCA, 0xFF, 1, 0, 3, 0, 0, 0, 0]
            ++ frame_bytes 7 [])
          ([0xCA, 0xFE, 1, 1, 3, 0, 0, 0, 1, 0x68] ++ [0xCA, 0xFF, 1, 0, 3, 0, 0, 0, 0]
            ++ frame_bytes 7 []).length,
        0, [(3, [0x68])], false, true⟩ :=
  invalid_header_discards_buffer Endian.little 2 ⟨List.replicate 8192 0, 0⟩
    ([0xCA, 0xFE, 1, 1, 3, 0, 0, 0, 1, 0x68] ++ [0xCA, 0xFF, 1, 0, 3, 0, 0, 0, 0]
      ++ frame_bytes 7 [])
    [(3, [0x68])]
    (by decide) (by rw [List.length_replicate]; decide) (by decide) (by decide) (by decide)
    (by decide) (by decide) (by decide)

end ChatClient
